import Mathlib

/-!
Verification of the `onewire` crate (a bit-banged 1-Wire bus master with
device search, CRC-8 validation and a DS18B20 driver) against its
natural-language specification.

The Rust sources (`src/lib.rs`, `src/ds18b20.rs`) are shallowly embedded:
machine integers become `Nat`/`Int` with explicit two's-complement wrapping,
the open-drain pin becomes an explicit trace of pin operations, and the
1-Wire bus is simulated as the wired-AND of a finite set of responding
devices, exactly as the electrical protocol prescribes.
-/

namespace OneWire

/-- `ADDRESS_BYTES` from lib.rs. -/
def ADDRESS_BYTES : Nat := 8

/-- `ADDRESS_BITS` from lib.rs (`ADDRESS_BYTES * 8`). -/
def ADDRESS_BITS : Nat := ADDRESS_BYTES * 8

/-- The search phase of a running device search (`enum SearchState` in lib.rs). -/
inductive SearchState where
  | Initialized
  | DeviceFound
  | End
  deriving DecidableEq, Repr

/-- `struct DeviceSearch` from lib.rs: 8 address bytes, 8 discrepancy-bitmap
bytes and the search phase.  Byte arrays are lists of `Nat` holding `u8`
values. -/
structure DeviceSearch where
  address : List Nat
  discrepancies : List Nat
  state : SearchState
  deriving DecidableEq, Repr

/-- `DeviceSearch::new` / `Default`: all-zero arrays, state `Initialized`. -/
def DeviceSearch.new : DeviceSearch :=
  { address := List.replicate 8 0
    discrepancies := List.replicate 8 0
    state := .Initialized }

/-- `DeviceSearch::is_bit_set`: test bit `bit` of a little-endian byte array
(bit `k` of byte `bit / 8`, LSB first), `false` out of range. -/
def is_bit_set (array : List Nat) (bit : Nat) : Bool :=
  if bit / 8 ≥ array.length then false
  else (array.getD (bit / 8) 0 &&& (0x01 <<< (bit % 8))) != 0x00

/-- `DeviceSearch::set_bit`: set bit `bit`, no-op out of range. -/
def set_bit (array : List Nat) (bit : Nat) : List Nat :=
  if bit / 8 ≥ array.length then array
  else array.set (bit / 8) (array.getD (bit / 8) 0 ||| (0x01 <<< (bit % 8)))

/-- `DeviceSearch::reset_bit`: clear bit `bit`, no-op out of range.
`0xFF ^^^ mask` is the 8-bit complement `!(0x01 << offset)` of the Rust
source (the array holds `u8` values). -/
def reset_bit (array : List Nat) (bit : Nat) : List Nat :=
  if bit / 8 ≥ array.length then array
  else array.set (bit / 8) (array.getD (bit / 8) 0 &&& (0xFF ^^^ (0x01 <<< (bit % 8))))

def DeviceSearch.is_bit_set_in_address (s : DeviceSearch) (bit : Nat) : Bool :=
  is_bit_set s.address bit

def DeviceSearch.set_bit_in_address (s : DeviceSearch) (bit : Nat) : DeviceSearch :=
  { s with address := set_bit s.address bit }

def DeviceSearch.reset_bit_in_address (s : DeviceSearch) (bit : Nat) : DeviceSearch :=
  { s with address := reset_bit s.address bit }

def DeviceSearch.write_bit_in_address (s : DeviceSearch) (bit : Nat) (value : Bool) :
    DeviceSearch :=
  if value then s.set_bit_in_address bit else s.reset_bit_in_address bit

def DeviceSearch.is_bit_set_in_discrepancies (s : DeviceSearch) (bit : Nat) : Bool :=
  is_bit_set s.discrepancies bit

def DeviceSearch.set_bit_in_discrepancy (s : DeviceSearch) (bit : Nat) : DeviceSearch :=
  { s with discrepancies := set_bit s.discrepancies bit }

def DeviceSearch.reset_bit_in_discrepancy (s : DeviceSearch) (bit : Nat) : DeviceSearch :=
  { s with discrepancies := reset_bit s.discrepancies bit }

/-- `DeviceSearch::last_discrepancy`: index of the highest set bit of the
discrepancy bitmap (the source scans bits `0..64` keeping the last set one). -/
def DeviceSearch.last_discrepancy (s : DeviceSearch) : Option Nat :=
  (List.range ADDRESS_BITS).foldl
    (fun result i => if s.is_bit_set_in_discrepancies i then some i else result) none

/-!
The simulated bus.  A bus holds a finite set of devices, each identified by
its 64-bit ROM value (`Nat` below `2 ^ 64`, bit `i` being the i-th bit sent
on the wire).  During a search round the devices that are still answering
form the candidate list; a read slot is the wired-AND of their outputs and a
written bit silences every candidate whose bit differs.
-/

/-- Read of the true-bit slot: the line stays high iff every still-responding
candidate has a 1 at position `i`. -/
def busBit0 (cand : List Nat) (i : Nat) : Bool := cand.all (fun d => d.testBit i)

/-- Read of the complement-bit slot: high iff every candidate has a 0 at `i`. -/
def busBit1 (cand : List Nat) (i : Nat) : Bool := cand.all (fun d => !d.testBit i)

/-- The master writes bit `b`: candidates whose bit `i` differs go silent for
the rest of the round. -/
def busWrite (cand : List Nat) (i : Nat) (b : Bool) : List Nat :=
  cand.filter (fun d => d.testBit i == b)

/-- The replay phase of `OneWire::search` (lib.rs lines 387-402): for each bit
below the last discrepancy, read both slots, abort with `Ok(None)` if no
device answered, else re-write the bit stored in the accumulated address.
The search struct is not modified in this phase. -/
def replayLoop : List Nat → List Nat → DeviceSearch → Option (List Nat)
  | [], cand, _ => some cand
  | i :: rest, cand, rom =>
    let bit0 := busBit0 cand i
    let bit1 := busBit1 cand i
    if bit0 && bit1 then none
    else replayLoop rest (busWrite cand i (rom.is_bit_set_in_address i)) rom

/-- The discovery loop of `OneWire::search` (lib.rs lines 411-439), iterating
over the remaining bit indices.  Returns the (possibly mutated) search struct
and `some discrepancy_found` on completion, `none` on an aborted round. -/
def discLoop : List Nat → List Nat → DeviceSearch → Bool → Option Nat →
    DeviceSearch × Option Bool
  | [], _, rom, discrepancy_found, _ => (rom, some discrepancy_found)
  | i :: rest, cand, rom, discrepancy_found, last_discrepancy =>
    let bit0 := busBit0 cand i
    let bit1 := busBit1 cand i
    if last_discrepancy = some i then
      let rom := rom.reset_bit_in_discrepancy i
      let rom := rom.set_bit_in_address i
      discLoop rest (busWrite cand i true) rom discrepancy_found last_discrepancy
    else if bit0 && bit1 then (rom, none)
    else if !bit0 && !bit1 then
      let rom := rom.set_bit_in_discrepancy i
      let rom := rom.reset_bit_in_address i
      discLoop rest (busWrite cand i false) rom true last_discrepancy
    else
      let rom := rom.write_bit_in_address i bit0
      discLoop rest (busWrite cand i bit0) rom discrepancy_found last_discrepancy

/-- The epilogue of `OneWire::search` (lib.rs lines 441-448): fix the new
state from `discrepancy_found` and the remaining discrepancies, and return
the accumulated address. -/
def searchFinish : DeviceSearch × Option Bool → DeviceSearch × Option (List Nat)
  | (rom, none) => (rom, none)
  | (rom, some discrepancy_found) =>
    let rom :=
      if !discrepancy_found && rom.last_discrepancy.isNone
      then { rom with state := SearchState.End }
      else { rom with state := SearchState.DeviceFound }
    (rom, some rom.address)

/-- One call of `OneWire::search` (lib.rs lines 368-449) against the simulated
bus `devices`.  A reset sees a presence pulse iff at least one device is on
the bus; all devices answer the search command. -/
def searchRound (devices : List Nat) (rom : DeviceSearch) :
    DeviceSearch × Option (List Nat) :=
  if rom.state = SearchState.End then (rom, none)
  else
    let last_discrepancy := rom.last_discrepancy
    if devices.isEmpty then (rom, none)
    else
      match last_discrepancy with
      | some l =>
        match replayLoop (List.range l) devices rom with
        | none => (rom, none)
        | some cand =>
          searchFinish (discLoop (List.range' l (ADDRESS_BITS - l)) cand rom false (some l))
      | none =>
        if rom.state = SearchState.DeviceFound then ({ rom with state := .End }, none)
        else searchFinish (discLoop (List.range' 0 ADDRESS_BITS) devices rom false none)

/-- Repeated `search_next` calls against a fixed simulated bus, collecting the
yielded addresses; stops early if a round yields nothing. -/
def searchRun : Nat → List Nat → DeviceSearch → List (List Nat) × DeviceSearch
  | 0, _, rom => ([], rom)
  | n + 1, devices, rom =>
    match searchRound devices rom with
    | (rom', none) => ([], rom')
    | (rom', some address) =>
      let rest := searchRun n devices rom'
      (address :: rest.1, rest.2)

/-- The 64-bit ROM value of an 8-byte little-endian address array. -/
def addrVal (address : List Nat) : Nat :=
  address.foldr (fun b acc => b + 256 * acc) 0

/-! ### Bit-level semantics of the byte-array helpers -/

/-- Well-formed 8-entry `u8` array. -/
def ByteArrOk (a : List Nat) : Prop := a.length = 8 ∧ ∀ b ∈ a, b < 256

theorem getD_of_lt (a : List Nat) {n : Nat} (h : n < a.length) (d : Nat) :
    a.getD n d = a[n] := by
  rw [List.getD_eq_getElem?_getD, List.getElem?_eq_getElem h]
  rfl

theorem getD_set_self (a : List Nat) {n : Nat} (h : n < a.length) (v d : Nat) :
    (a.set n v).getD n d = v := by
  rw [getD_of_lt _ (by simpa using h) d]
  simp [h]

theorem getD_set_ne (a : List Nat) {m n : Nat} (h : m ≠ n) (v d : Nat) :
    (a.set n v).getD m d = a.getD m d := by
  by_cases hm : m < a.length
  · rw [getD_of_lt _ (by simpa using hm) d, getD_of_lt _ hm d]
    exact List.getElem_set_ne (by omega) ..
  · rw [List.getD_eq_getElem?_getD, List.getD_eq_getElem?_getD,
      List.getElem?_eq_none (by simpa using hm), List.getElem?_eq_none (by omega)]

theorem is_bit_set_eq_testBit {a : List Nat} {i : Nat} (h : i / 8 < a.length) :
    is_bit_set a i = (a.getD (i / 8) 0).testBit (i % 8) := by
  have h2 : (0x01 : Nat) <<< (i % 8) = 2 ^ (i % 8) := by
    rw [Nat.shiftLeft_eq, one_mul]
  unfold is_bit_set
  rw [if_neg (by omega), h2, Nat.and_two_pow]
  cases hb : (a.getD (i / 8) 0).testBit (i % 8) <;>
    simp [(Nat.two_pow_pos (i % 8)).ne']

theorem is_bit_set_of_ge {a : List Nat} {i : Nat} (h : a.length ≤ i / 8) :
    is_bit_set a i = false := by
  unfold is_bit_set
  rw [if_pos (by omega)]

theorem length_set_bit (a : List Nat) (j : Nat) : (set_bit a j).length = a.length := by
  unfold set_bit
  split <;> simp

theorem length_reset_bit (a : List Nat) (j : Nat) : (reset_bit a j).length = a.length := by
  unfold reset_bit
  split <;> simp

theorem ByteArrOk.set_bit {a : List Nat} (ha : ByteArrOk a) (j : Nat) :
    ByteArrOk (set_bit a j) := by
  obtain ⟨hlen, hmem⟩ := ha
  refine ⟨by rw [length_set_bit, hlen], ?_⟩
  intro b hb
  unfold OneWire.set_bit at hb
  split at hb
  · exact hmem b hb
  · rcases List.mem_or_eq_of_mem_set hb with h | h
    · exact hmem b h
    · subst h
      have hj : j / 8 < a.length := by omega
      have hx : a.getD (j / 8) 0 < 2 ^ 8 := by
        rw [getD_of_lt a hj 0]
        exact hmem _ (List.getElem_mem hj)
      have hp : (0x01 : Nat) <<< (j % 8) < 2 ^ 8 := by
        rw [Nat.shiftLeft_eq, one_mul]
        exact Nat.pow_lt_pow_right (by omega) (by omega)
      simpa using Nat.or_lt_two_pow hx hp

theorem ByteArrOk.reset_bit {a : List Nat} (ha : ByteArrOk a) (j : Nat) :
    ByteArrOk (reset_bit a j) := by
  obtain ⟨hlen, hmem⟩ := ha
  refine ⟨by rw [length_reset_bit, hlen], ?_⟩
  intro b hb
  unfold OneWire.reset_bit at hb
  split at hb
  · exact hmem b hb
  · rcases List.mem_or_eq_of_mem_set hb with h | h
    · exact hmem b h
    · subst h
      have hj : j / 8 < a.length := by omega
      have hx : a.getD (j / 8) 0 < 256 := by
        rw [getD_of_lt a hj 0]
        exact hmem _ (List.getElem_mem hj)
      exact Nat.lt_of_le_of_lt Nat.and_le_left hx

theorem is_bit_set_set_bit {a : List Nat} (ha : a.length = 8) {i j : Nat}
    (hi : i < 64) (hj : j < 64) :
    is_bit_set (set_bit a j) i = (is_bit_set a i || (i == j)) := by
  have hj8 : j / 8 < a.length := by omega
  have hi8 : i / 8 < a.length := by omega
  unfold set_bit
  rw [if_neg (by omega)]
  rw [is_bit_set_eq_testBit (by simpa using hi8), is_bit_set_eq_testBit hi8]
  by_cases hdiv : i / 8 = j / 8
  · rw [hdiv, getD_set_self a hj8 _ 0, Nat.shiftLeft_eq, one_mul, Nat.testBit_or,
      Nat.testBit_two_pow]
    by_cases heq : i = j
    · simp [heq]
    · simp [heq, show ¬ (j % 8 = i % 8) by omega]
  · rw [getD_set_ne a (by omega) _ 0]
    simp [show ¬ i = j by omega]

theorem is_bit_set_reset_bit {a : List Nat} (ha : a.length = 8) {i j : Nat}
    (hi : i < 64) (hj : j < 64) :
    is_bit_set (reset_bit a j) i = (is_bit_set a i && !(i == j)) := by
  have hj8 : j / 8 < a.length := by omega
  have hi8 : i / 8 < a.length := by omega
  have h8 : i % 8 < 8 := by omega
  unfold reset_bit
  rw [if_neg (by omega)]
  rw [is_bit_set_eq_testBit (by simpa using hi8), is_bit_set_eq_testBit hi8]
  have hmask : (0xFF : Nat) ^^^ 0x01 <<< (j % 8) = (2 ^ 8 - 1) ^^^ 2 ^ (j % 8) := by
    rw [Nat.shiftLeft_eq, one_mul]
    norm_num
  by_cases hdiv : i / 8 = j / 8
  · rw [hdiv, getD_set_self a hj8 _ 0, hmask, Nat.testBit_and, Nat.testBit_xor,
      Nat.testBit_two_pow_sub_one, Nat.testBit_two_pow]
    by_cases heq : i = j
    · simp [heq, show j % 8 < 8 by omega]
    · simp [heq, h8, show ¬ (j % 8 = i % 8) by omega]
  · rw [getD_set_ne a (by omega) _ 0]
    simp [show ¬ i = j by omega]

theorem is_bit_set_replicate_zero (i : Nat) :
    is_bit_set (List.replicate 8 0) i = false := by
  by_cases h : 8 ≤ i / 8
  · exact is_bit_set_of_ge (by simpa using h)
  · have hlt : i / 8 < (List.replicate 8 (0 : Nat)).length := by
      simpa using Nat.lt_of_not_le h
    rw [is_bit_set_eq_testBit hlt, getD_of_lt _ hlt 0, List.getElem_replicate]
    simp

/-! ### `last_discrepancy` as the greatest set bit -/

theorem foldl_last_aux (p : Nat → Bool) (m s : Nat) (init : Option Nat) :
    (List.range' s (m + 1)).foldl (fun r i => if p i then some i else r) init =
      if p (s + m) then some (s + m)
      else (List.range' s m).foldl (fun r i => if p i then some i else r) init := by
  rw [List.range'_concat, List.foldl_append]
  simp only [List.foldl_cons, List.foldl_nil, one_mul]

theorem foldl_last_none (p : Nat → Bool) (n s : Nat) (init : Option Nat)
    (h : ∀ i, s ≤ i → i < s + n → p i = false) :
    (List.range' s n).foldl (fun r i => if p i then some i else r) init = init := by
  induction n with
  | zero => simp
  | succ m ih =>
    rw [foldl_last_aux]
    have hp : p (s + m) = false := h _ (by omega) (by omega)
    rw [if_neg (by simp [hp])]
    exact ih fun i h1 h2 => h i h1 (by omega)

theorem foldl_last_some (p : Nat → Bool) (n s : Nat) (init : Option Nat) (l : Nat)
    (hl : p l = true) (hs : s ≤ l) (hn : l < s + n)
    (hmax : ∀ j, l < j → j < s + n → p j = false) :
    (List.range' s n).foldl (fun r i => if p i then some i else r) init = some l := by
  induction n with
  | zero => omega
  | succ m ih =>
    rw [foldl_last_aux]
    by_cases hend : l = s + m
    · subst hend
      rw [if_pos hl]
    · have hp : p (s + m) = false := hmax _ (by omega) (by omega)
      rw [if_neg (by simp [hp])]
      exact ih (by omega) fun j h1 h2 => hmax j h1 (by omega)

theorem last_discrepancy_eq_none {rom : DeviceSearch}
    (h : ∀ i, i < 64 → rom.is_bit_set_in_discrepancies i = false) :
    rom.last_discrepancy = none := by
  unfold DeviceSearch.last_discrepancy
  rw [show List.range ADDRESS_BITS = List.range' 0 64 by simp [ADDRESS_BITS, ADDRESS_BYTES, List.range_eq_range']]
  exact foldl_last_none _ 64 0 none fun i h1 h2 => h i (by omega)

theorem last_discrepancy_eq_some {rom : DeviceSearch} {l : Nat}
    (hl : rom.is_bit_set_in_discrepancies l = true) (hl64 : l < 64)
    (hmax : ∀ j, l < j → j < 64 → rom.is_bit_set_in_discrepancies j = false) :
    rom.last_discrepancy = some l := by
  unfold DeviceSearch.last_discrepancy
  rw [show List.range ADDRESS_BITS = List.range' 0 64 by simp [ADDRESS_BITS, ADDRESS_BYTES, List.range_eq_range']]
  exact foldl_last_some _ 64 0 none l hl (by omega) (by omega)
    fun j h1 h2 => hmax j h1 (by omega)

/-- C8: once a `DeviceSearch` has reached the `End` state, `search` (and hence
`search_next`) returns `Ok(None)` and leaves the address bytes, the
discrepancy bytes and the state unchanged, for every simulated bus. -/
theorem c8_search_end_frame (devices : List Nat) (rom : DeviceSearch)
    (h : rom.state = SearchState.End) : searchRound devices rom = (rom, none) := by
  simp [searchRound, h]

theorem c8_search_end_frame_witness :
    searchRound [3]
        { address := List.replicate 8 0, discrepancies := List.replicate 8 0,
          state := SearchState.End } =
      ({ address := List.replicate 8 0, discrepancies := List.replicate 8 0,
         state := SearchState.End }, none) :=
  c8_search_end_frame [3] _ rfl

/-! ### DS18B20 temperature split (ds18b20.rs) -/

/-- The `i16` value of a raw `u16` word (`temperature as i16`, two's
complement reinterpretation). -/
def toI16 (temperature : Nat) : Int :=
  if temperature < 0x8000 then (temperature : Int) else (temperature : Int) - 65536

/-- Two's-complement wrapping to the `i16` range (used for the `i16` negation
`-temp_i16`, which wraps in release builds). -/
def wrapI16 (x : Int) : Int := (x + 32768) % 65536 - 32768

/-- `split_temp` from ds18b20.rs: split a raw `u16` reading into an integer
part and a fraction scaled by 10000.  `>> 4` on an `i16` is the arithmetic
shift, i.e. `Int.fdiv` by 16; `& 0xF` acts on the low bits of the
two's-complement representation; the negation of `temp_i16` wraps
(release-mode semantics; for input `0x8000` a debug build would panic on
overflow). -/
def split_temp (temperature : Nat) : Int × Int :=
  let temp_i16 : Int := toI16 temperature
  if temperature < 0x8000 then
    (temp_i16.fdiv 16, (((temp_i16 % 65536).toNat &&& 0xF : Nat) : Int) * 625)
  else
    let abs : Int := wrapI16 (-temp_i16)
    (-(abs.fdiv 16), -625 * (((abs % 65536).toNat &&& 0xF : Nat) : Int))

theorem split_temp_eq_pos {raw : Nat} (h : raw < 32768) :
    split_temp raw = (((raw / 16 : Nat) : Int), ((raw % 16 : Nat) : Int) * 625) := by
  unfold split_temp toI16
  rw [if_pos (by omega), if_pos (by omega)]
  have h1 : ((raw : Int) % 65536).toNat = raw := by
    rw [Int.emod_eq_of_lt (by omega) (by omega), Int.toNat_ofNat]
  have h2 : (raw : Int).fdiv 16 = ((raw / 16 : Nat) : Int) := (Int.ofNat_fdiv raw 16).symm
  rw [h1, h2]
  have h3 : raw &&& 0xF = raw % 16 := Nat.and_pow_two_sub_one_eq_mod raw 4
  rw [h3]

theorem split_temp_eq_neg {raw : Nat} (h1 : 32768 < raw) (h2 : raw < 65536) :
    split_temp raw =
      (-(((65536 - raw) / 16 : Nat) : Int), -625 * (((65536 - raw) % 16 : Nat) : Int)) := by
  unfold split_temp toI16 wrapI16
  rw [if_neg (by omega), if_neg (by omega)]
  dsimp only
  have habs : -((raw : Int) - 65536) + 32768 = ((65536 - raw : Nat) : Int) + 32768 := by
    have : ((65536 - raw : Nat) : Int) = 65536 - (raw : Int) := by
      push_cast [Nat.cast_sub (by omega : raw ≤ 65536)]
      ring
    rw [this]
    ring
  rw [habs]
  have hlt : ((65536 - raw : Nat) : Int) + 32768 < 65536 := by
    have : (65536 - raw : Nat) < 32768 := by omega
    omega
  have hge : (0 : Int) ≤ ((65536 - raw : Nat) : Int) + 32768 := by positivity
  rw [Int.emod_eq_of_lt hge hlt]
  have hsimp : ((65536 - raw : Nat) : Int) + 32768 - 32768 = ((65536 - raw : Nat) : Int) := by
    ring
  rw [hsimp]
  have h3 : (((65536 - raw : Nat) : Int) % 65536).toNat = 65536 - raw := by
    rw [Int.emod_eq_of_lt (by positivity) (by omega), Int.toNat_ofNat]
  have h4 : ((65536 - raw : Nat) : Int).fdiv 16 = (((65536 - raw) / 16 : Nat) : Int) :=
    (Int.ofNat_fdiv (65536 - raw) 16).symm
  rw [h3, h4, Nat.and_pow_two_sub_one_eq_mod (65536 - raw) 4]

/-- C2 counterexample: at the one raw value `0x8000` the claimed identity
`integer + fraction/10000 = raw/16` fails: the `i16` negation wraps and the
code returns `(2048, 0)` although the raw two's-complement value is `-32768`
(so `raw/16 = -2048`). -/
theorem c2_split_temp_counterexample :
    split_temp 0x8000 = (2048, 0) ∧
    10000 * (split_temp 0x8000).1 + (split_temp 0x8000).2 ≠ 625 * toI16 0x8000 := by
  constructor
  · decide
  · decide

/-- C2 (amended): `split_temp` satisfies all listed test vectors, and for
every 16-bit raw value except `0x8000` the returned pair represents exactly
the raw two's-complement value divided by 16 (`integer + fraction/10000 =
raw/16`, stated integrally as `10000*integer + fraction = 625*raw`), with
the fraction a multiple of 625 by construction and the signs of integer and
fraction never opposite. -/
theorem c2_split_temp_amended :
    (split_temp 0x07d0 = (125, 0) ∧ split_temp 0x0191 = (25, 625) ∧
     split_temp 0x0008 = (0, 5000) ∧ split_temp 0x0000 = (0, 0) ∧
     split_temp 0xfff8 = (0, -5000) ∧ split_temp 0xFC90 = (-55, 0)) ∧
    ∀ raw : Nat, raw < 65536 → raw ≠ 0x8000 →
      10000 * (split_temp raw).1 + (split_temp raw).2 = 625 * toI16 raw ∧
      (0 ≤ (split_temp raw).1 ∧ 0 ≤ (split_temp raw).2 ∨
       (split_temp raw).1 ≤ 0 ∧ (split_temp raw).2 ≤ 0) := by
  refine ⟨by decide, ?_⟩
  intro raw hlt hne
  by_cases hpos : raw < 32768
  · rw [split_temp_eq_pos hpos]
    unfold toI16
    rw [if_pos (by omega)]
    refine ⟨?_, Or.inl ⟨by positivity, by positivity⟩⟩
    have : raw % 16 + 16 * (raw / 16) = raw := Nat.mod_add_div raw 16
    push_cast
    omega
  · rw [split_temp_eq_neg (by omega) hlt]
    unfold toI16
    rw [if_neg (by omega)]
    constructor
    · have h5 : (65536 - raw) % 16 + 16 * ((65536 - raw) / 16) = 65536 - raw :=
        Nat.mod_add_div _ 16
      have hc : ((65536 - raw : Nat) : Int) = 65536 - (raw : Int) := by
        push_cast [Nat.cast_sub (by omega : raw ≤ 65536)]
        ring
      push_cast
      omega
    · refine Or.inr ⟨?_, ?_⟩
      · show -(((65536 - raw) / 16 : Nat) : Int) ≤ 0
        simp only [Left.neg_nonpos_iff]
        positivity
      · show -625 * (((65536 - raw) % 16 : Nat) : Int) ≤ 0
        have h0 : (0 : Int) ≤ (((65536 - raw) % 16 : Nat) : Int) := by positivity
        nlinarith

/-- C2 witness: concrete instance of the amended universal property at
raw value `0xfff8`. -/
theorem c2_split_temp_amended_witness :
    10000 * (split_temp 0xfff8).1 + (split_temp 0xfff8).2 = 625 * toI16 0xfff8 ∧
    (0 ≤ (split_temp 0xfff8).1 ∧ 0 ≤ (split_temp 0xfff8).2 ∨
     (split_temp 0xfff8).1 ≤ 0 ∧ (split_temp 0xfff8).2 ≤ 0) :=
  c2_split_temp_amended.2 0xfff8 (by decide) (by decide)

/-! ### Pin-operation traces of the bit/byte transport -/

/-- Error type of the bus layer (`enum Error` in lib.rs, minus the generic
`PortError`/`Debug` payloads, which the modelled scenarios never produce). -/
inductive OWError where
  | WireNotHigh
  | CrcMismatch (computed expected : Nat)
  | FamilyCodeMismatch (expected actual : Nat)
  deriving DecidableEq, Repr

/-- A `Result` value (decidable stand-in for `Except OWError`). -/
inductive OWResult (α : Type) where
  | ok (val : α)
  | err (e : OWError)
  deriving DecidableEq, Repr

/-- A primitive operation on the open-drain pin.  `setLow`/`setHigh` are the
`OpenDrainOutput` calls (per the trait documentation in lib.rs, `set_low`
drives the line low and `set_high` drives/releases it high); `readPin` is an
`is_high` poll; `delayUs` a busy wait. -/
inductive PinOp where
  | setLow
  | setHigh
  | readPin
  | delayUs (us : Nat)
  deriving DecidableEq, Repr

/-- Pin trace of `OneWire::write_bit` (lib.rs 556-565): `write_low`,
`set_output` (a no-op), the value-dependent delay, `write_high`, and the
slot-padding delay. -/
def write_bit_trace (high : Bool) : List PinOp :=
  [.setLow, .delayUs (if high then 10 else 65), .setHigh,
   .delayUs (if high then 55 else 5)]

/-- The bit values emitted by the loop of `OneWire::write_byte`
(`byte & 0x01 == 0x01`, then `byte >>= 1`, eight times). -/
def writeByteBitsGo : Nat → Nat → List Bool
  | 0, _ => []
  | n + 1, byte => ((byte &&& 0x01) == 0x01) :: writeByteBitsGo n (byte >>> 1)

def writeByteBits (byte : Nat) : List Bool := writeByteBitsGo 8 byte

/-- Pin trace of `OneWire::disable_parasite_mode` (lib.rs 567-571):
`set_input` (which is `output.set_high()`) followed by `write_low`
(`output.set_low()`). -/
def disable_parasite_mode_trace : List PinOp := [.setHigh, .setLow]

/-- Pin trace of `OneWire::write_byte` (lib.rs 540-554): the eight bit slots
LSB-first, then — unless parasite/hold power was requested for this byte —
`disable_parasite_mode`. -/
def write_byte_trace (byte : Nat) (parasite_mode : Bool) : List PinOp :=
  (writeByteBits byte).flatMap write_bit_trace ++
    (if !parasite_mode then disable_parasite_mode_trace else [])

/-- The last line-driving operation of a trace (polls and delays do not touch
the drive state). -/
def lastDrive (t : List PinOp) : Option PinOp :=
  t.foldl
    (fun acc op =>
      match op with
      | .delayUs _ => acc
      | .readPin => acc
      | _ => some op) none

theorem writeByteBitsGo_eq (n : Nat) :
    ∀ byte : Nat, writeByteBitsGo n byte = (List.range n).map byte.testBit := by
  induction n with
  | zero => intro byte; simp [writeByteBitsGo]
  | succ m ih =>
    intro byte
    rw [writeByteBitsGo, ih (byte >>> 1), List.range_succ_eq_map]
    simp only [List.map_cons, List.map_map]
    congr 1
    · by_cases hb : byte % 2 = 1 <;> simp [hb]
    · apply List.map_congr_left
      intro i _
      simp [Function.comp, Nat.testBit_add_one, Nat.shiftRight_eq_div_pow]

/-- C5: evaluation of the code at the failing scenario.  For every byte
written with the parasite/hold flag clear, the final line-driving pin
operation of the emitted trace is `set_low` — the line is left driven low by
`disable_parasite_mode` (`set_high` then `set_low`), not released to
floating/high-impedance as the specification requires. -/
theorem c5_write_byte_leaves_line_driven (byte : Nat) :
    lastDrive (write_byte_trace byte false) = some PinOp.setLow ∧
    lastDrive (write_byte_trace byte false) ≠ some PinOp.setHigh := by
  have h : lastDrive (write_byte_trace byte false) = some PinOp.setLow := by
    simp [write_byte_trace, disable_parasite_mode_trace, lastDrive, List.foldl_append]
  exact ⟨h, by rw [h]; simp⟩

/-- `OneWire::select` at byte level (lib.rs 341-349): the sequence of
`(byte, hold)` pairs handed to `write_byte` — the Select ROM command byte
`0x55` with the bus's global parasite flag, then each address byte, the hold
flag set only on the last one (`parasite_mode && last`). -/
def selectBytes (parasite_mode : Bool) (address : List Nat) : List (Nat × Bool) :=
  (0x55, parasite_mode) ::
    (List.range address.length).map
      (fun i => (address.getD i 0, parasite_mode && (i == address.length - 1)))

theorem range_map_getD (l : List Nat) :
    (List.range l.length).map (fun i => l.getD i 0) = l := by
  induction l with
  | nil => simp
  | cons x xs ih =>
    rw [List.length_cons, List.range_succ_eq_map]
    simp only [List.map_cons, List.map_map, List.getD_cons_zero]
    have hc : ((fun i => (x :: xs).getD i 0) ∘ Nat.succ) = fun i : Nat => xs.getD i 0 := by
      funext i
      simp
    rw [hc, ih]

/-- C4 counterexample: with the bus-global parasite flag set, the command
byte `0x55` is written with the hold flag `true` (the code passes
`parasite_mode` for the command byte), so the flag sequence is
`[true, false×7, true]` and not the claimed `[false×8, true]` (released
after the command byte). -/
theorem c4_select_counterexample :
    (selectBytes true [0x28, 1, 2, 3, 4, 5, 6, 7]).map Prod.snd =
      [true, false, false, false, false, false, false, false, true] ∧
    (selectBytes true [0x28, 1, 2, 3, 4, 5, 6, 7]).map Prod.snd ≠
      [false, false, false, false, false, false, false, false, true] := by
  constructor
  · decide
  · decide

/-- C4 (amended): `select` writes the Select ROM command byte `0x55` followed
by the 8 address bytes in stored order, each byte LSB-first on the wire;
when the bus's parasite flag is set the line is held (hold flag `true`) after
the command byte and after the final (eighth) address byte, and released
after each of the first seven address bytes. -/
theorem c4_select_amended (parasite_mode : Bool) (address : List Nat)
    (h : address.length = 8) :
    (selectBytes parasite_mode address).map Prod.fst = 0x55 :: address ∧
    (selectBytes parasite_mode address).map Prod.snd =
      parasite_mode :: (List.replicate 7 false ++ [parasite_mode]) ∧
    ∀ byte : Nat, writeByteBits byte = (List.range 8).map byte.testBit := by
  refine ⟨?_, ?_, fun byte => writeByteBitsGo_eq 8 byte⟩
  · simp only [selectBytes, List.map_cons, List.map_map]
    congr 1
    have hfst : (Prod.fst ∘ fun i : Nat =>
        (address.getD i 0, parasite_mode && (i == address.length - 1))) =
        fun i : Nat => address.getD i 0 := by
      funext i
      rfl
    rw [hfst]
    exact range_map_getD address
  · simp only [selectBytes, List.map_cons, List.map_map, h]
    congr 1
    have hsnd : (Prod.snd ∘ fun i : Nat =>
        (address.getD i 0, parasite_mode && (i == 8 - 1))) =
        fun i : Nat => parasite_mode && (i == 8 - 1) := by
      funext i
      rfl
    rw [hsnd]
    cases parasite_mode <;> decide

/-- C4 witness: the amended select contract at a concrete address with the
parasite flag set. -/
theorem c4_select_amended_witness :
    (selectBytes true [0x28, 9, 8, 7, 6, 5, 4, 3]).map Prod.fst =
      0x55 :: [0x28, 9, 8, 7, 6, 5, 4, 3] ∧
    (selectBytes true [0x28, 9, 8, 7, 6, 5, 4, 3]).map Prod.snd =
      true :: (List.replicate 7 false ++ [true]) ∧
    ∀ byte : Nat, writeByteBits byte = (List.range 8).map byte.testBit :=
  c4_select_amended true [0x28, 9, 8, 7, 6, 5, 4, 3] (by decide)

/-! ### `reset` and `ensure_wire_high` on a constant-level bus -/

/-- `OneWire::ensure_wire_high` (lib.rs 480-488) with `n` polls remaining, on
a bus whose line constantly reads `level`: each failed poll is followed by a
2µs delay; exhausting the loop yields `WireNotHigh`. -/
def ensureGo (level : Bool) : Nat → OWResult Unit × List PinOp
  | 0 => (.err .WireNotHigh, [])
  | n + 1 =>
    if level then (.ok (), [.readPin])
    else
      let rest := ensureGo level n
      (rest.1, .readPin :: .delayUs 2 :: rest.2)

def ensure_wire_high (level : Bool) : OWResult Unit × List PinOp :=
  ensureGo level 125

/-- The presence-sampling loop of `reset` (7 iterations of `delay_us(10)`
followed by a read, OR-ing the negated reads into `val`). -/
def presenceGo (level : Bool) : Nat → Bool → Bool × List PinOp
  | 0, val => (val, [])
  | n + 1, val =>
    let rest := presenceGo level n (val || !level)
    (rest.1, .delayUs 10 :: .readPin :: rest.2)

/-- `OneWire::reset` (lib.rs 455-478) on a bus whose line constantly reads
`level`: release (`set_input`), wait for the wire to be high, issue the
480µs low reset pulse, release, sample for a presence pulse 7 times, pad the
slot with 410µs. -/
def reset (level : Bool) : OWResult Bool × List PinOp :=
  match ensure_wire_high level with
  | (.err e, t1) => (.err e, PinOp.setHigh :: t1)
  | (.ok _, t1) =>
    let p := presenceGo level 7 false
    (.ok p.1,
      PinOp.setHigh :: t1 ++ [PinOp.setLow, PinOp.delayUs 480, PinOp.setHigh] ++
        p.2 ++ [PinOp.delayUs 410])

set_option maxRecDepth 8192 in
/-- C7: on a bus whose idle line reads high with no device driving a presence
pulse, `reset` returns `Ok(false)`; on a bus stuck low it returns
`Err(WireNotHigh)` after exactly 125 polls, each followed by a 2µs delay,
without ever issuing the reset pulse (no `set_low` appears in the trace). -/
theorem c7_reset_semantics :
    (reset true).1 = OWResult.ok false ∧
    (reset false).1 = OWResult.err OWError.WireNotHigh ∧
    (reset false).2.count (PinOp.delayUs 2) = 125 ∧
    (reset false).2.count PinOp.readPin = 125 ∧
    PinOp.setLow ∉ (reset false).2 := by
  refine ⟨?_, ?_, ?_, ?_, ?_⟩ <;> decide

/-! ### Iterator veneer over `search_next` (C10) -/

/-- `DeviceSearchIter::next` (lib.rs 238-246), abstracted over the behaviour
`f` of `wire.search_next` on the taken search state (`f` returns the result
and the search state as mutated by the call).  `self.search.take()?` empties
the slot and returns `None` if it was already empty; `transpose()?` returns
`None` — leaving the slot empty, discarding the state — when the search
returned `Ok(None)`; in the `Ok(Some _)` and `Err` cases the mutated state
is stored back and the item returned. -/
def iterNext (f : DeviceSearch → OWResult (Option (List Nat)) × DeviceSearch) :
    Option DeviceSearch → Option (OWResult (List Nat)) × Option DeviceSearch
  | none => (none, none)
  | some s =>
    match f s with
    | (.ok none, _) => (none, none)
    | (.ok (some d), s') => (some (.ok d), some s')
    | (.err e, s') => (some (.err e), some s')

/-- C10: once the iterator state is empty every subsequent `next` returns
nothing forever; a call whose `search_next` returns `Ok(None)` (even
transiently) empties the state; a call returning `Ok(Some device)` or `Err`
yields that item and preserves the (mutated) search state. -/
theorem c10_iter_next_semantics
    (f : DeviceSearch → OWResult (Option (List Nat)) × DeviceSearch)
    (s s' : DeviceSearch) (e : OWError) (d : List Nat) :
    iterNext f none = (none, none) ∧
    (∀ n : Nat, (fun st => (iterNext f st).2)^[n] none = none) ∧
    (f s = (.ok none, s') → iterNext f (some s) = (none, none)) ∧
    (f s = (.ok (some d), s') → iterNext f (some s) = (some (.ok d), some s')) ∧
    (f s = (.err e, s') → iterNext f (some s) = (some (.err e), some s')) := by
  refine ⟨rfl, ?_, ?_, ?_, ?_⟩
  · intro n
    induction n with
    | zero => rfl
    | succ m ih => rw [Function.iterate_succ_apply]; simpa using ih
  · intro h
    simp [iterNext, h]
  · intro h
    simp [iterNext, h]
  · intro h
    simp [iterNext, h]

/-- A `search_next` behaviour that always reports an empty round. -/
def constSearchNone : DeviceSearch → OWResult (Option (List Nat)) × DeviceSearch :=
  fun s => (.ok none, s)

theorem c10_iter_next_semantics_witness :
    iterNext constSearchNone (some DeviceSearch.new) = (none, none) ∧
    iterNext constSearchNone none = (none, none) :=
  ⟨(c10_iter_next_semantics constSearchNone DeviceSearch.new DeviceSearch.new
      OWError.WireNotHigh []).2.2.1 rfl,
   (c10_iter_next_semantics constSearchNone DeviceSearch.new DeviceSearch.new
      OWError.WireNotHigh []).1⟩

/-! ### CRC-8 (`CRC_TABLE`, `compute_crc8`, lib.rs 611-638) -/

def CRC_TABLE : List Nat := [
  0x00, 0x5E, 0xBC, 0xE2, 0x61, 0x3F, 0xDD, 0x83, 0xC2, 0x9C, 0x7E, 0x20, 0xA3,
  0xFD, 0x1F, 0x41, 0x9D, 0xC3, 0x21, 0x7F, 0xFC, 0xA2, 0x40, 0x1E, 0x5F, 0x01,
  0xE3, 0xBD, 0x3E, 0x60, 0x82, 0xDC, 0x23, 0x7D, 0x9F, 0xC1, 0x42, 0x1C, 0xFE,
  0xA0, 0xE1, 0xBF, 0x5D, 0x03, 0x80, 0xDE, 0x3C, 0x62, 0xBE, 0xE0, 0x02, 0x5C,
  0xDF, 0x81, 0x63, 0x3D, 0x7C, 0x22, 0xC0, 0x9E, 0x1D, 0x43, 0xA1, 0xFF, 0x46,
  0x18, 0xFA, 0xA4, 0x27, 0x79, 0x9B, 0xC5, 0x84, 0xDA, 0x38, 0x66, 0xE5, 0xBB,
  0x59, 0x07, 0xDB, 0x85, 0x67, 0x39, 0xBA, 0xE4, 0x06, 0x58, 0x19, 0x47, 0xA5,
  0xFB, 0x78, 0x26, 0xC4, 0x9A, 0x65, 0x3B, 0xD9, 0x87, 0x04, 0x5A, 0xB8, 0xE6,
  0xA7, 0xF9, 0x1B, 0x45, 0xC6, 0x98, 0x7A, 0x24, 0xF8, 0xA6, 0x44, 0x1A, 0x99,
  0xC7, 0x25, 0x7B, 0x3A, 0x64, 0x86, 0xD8, 0x5B, 0x05, 0xE7, 0xB9, 0x8C, 0xD2,
  0x30, 0x6E, 0xED, 0xB3, 0x51, 0x0F, 0x4E, 0x10, 0xF2, 0xAC, 0x2F, 0x71, 0x93,
  0xCD, 0x11, 0x4F, 0xAD, 0xF3, 0x70, 0x2E, 0xCC, 0x92, 0xD3, 0x8D, 0x6F, 0x31,
  0xB2, 0xEC, 0x0E, 0x50, 0xAF, 0xF1, 0x13, 0x4D, 0xCE, 0x90, 0x72, 0x2C, 0x6D,
  0x33, 0xD1, 0x8F, 0x0C, 0x52, 0xB0, 0xEE, 0x32, 0x6C, 0x8E, 0xD0, 0x53, 0x0D,
  0xEF, 0xB1, 0xF0, 0xAE, 0x4C, 0x12, 0x91, 0xCF, 0x2D, 0x73, 0xCA, 0x94, 0x76,
  0x28, 0xAB, 0xF5, 0x17, 0x49, 0x08, 0x56, 0xB4, 0xEA, 0x69, 0x37, 0xD5, 0x8B,
  0x57, 0x09, 0xEB, 0xB5, 0x36, 0x68, 0x8A, 0xD4, 0x95, 0xCB, 0x29, 0x77, 0xF4,
  0xAA, 0x48, 0x16, 0xE9, 0xB7, 0x55, 0x0B, 0x88, 0xD6, 0x34, 0x6A, 0x2B, 0x75,
  0x97, 0xC9, 0x4A, 0x14, 0xF6, 0xA8, 0x74, 0x2A, 0xC8, 0x96, 0x15, 0x4B, 0xA9,
  0xF7, 0xB6, 0xE8, 0x0A, 0x54, 0xD7, 0x89, 0x6B, 0x35]

/-- `compute_crc8` (lib.rs 634-638): fold the lookup table over the device's
8 address bytes followed by the data bytes, seed 0
(`CRC_TABLE[(byte ^ acc) as usize]`). -/
def compute_crc8 (address data : List Nat) : Nat :=
  (address ++ data).foldl (fun acc byte => CRC_TABLE.getD (byte ^^^ acc) 0) 0

/-- One bit step of the reference Dallas/Maxim CRC-8, from the spec's words:
polynomial x^8+x^5+x^4+1, i.e. feedback byte `0x8C` applied LSB-first.
State is `(crc, remaining byte bits)`. -/
def crcRefStep (p : Nat × Nat) : Nat × Nat :=
  let mix := (p.1 ^^^ p.2) &&& 1
  let crc := p.1 >>> 1
  (if mix = 1 then crc ^^^ 0x8C else crc, p.2 >>> 1)

def crcRefSteps : Nat → Nat × Nat → Nat × Nat
  | 0, p => p
  | n + 1, p => crcRefSteps n (crcRefStep p)

/-- Reference bitwise CRC-8 absorption of one byte (8 LSB-first bit steps). -/
def crc8_ref_update (crc byte : Nat) : Nat := (crcRefSteps 8 (crc, byte)).1

/-- Reference bitwise Dallas/Maxim CRC-8 of a byte string, seed 0. -/
def crc8_ref (bytes : List Nat) : Nat := bytes.foldl crc8_ref_update 0

theorem crcRefSteps_snd (n : Nat) : ∀ p : Nat × Nat, (crcRefSteps n p).2 = p.2 >>> n := by
  induction n with
  | zero => intro p; simp [crcRefSteps]
  | succ m ih =>
    intro p
    rw [crcRefSteps, ih (crcRefStep p)]
    show p.2 >>> 1 >>> m = p.2 >>> (m + 1)
    rw [← Nat.shiftRight_add, Nat.add_comm]

theorem xor_shiftRight (a b n : Nat) : (a ^^^ b) >>> n = a >>> n ^^^ b >>> n := by
  apply Nat.eq_of_testBit_eq
  intro i
  simp [Nat.testBit_shiftRight, Nat.testBit_xor]

theorem crcRefStep_xor {p q : Nat × Nat} (h : p.1 ^^^ p.2 = q.1 ^^^ q.2) :
    (crcRefStep p).1 ^^^ (crcRefStep p).2 = (crcRefStep q).1 ^^^ (crcRefStep q).2 := by
  have hmix : (q.1 ^^^ q.2) &&& 1 = (p.1 ^^^ p.2) &&& 1 := by rw [h]
  have hsh : p.1 >>> 1 ^^^ p.2 >>> 1 = q.1 >>> 1 ^^^ q.2 >>> 1 := by
    rw [← xor_shiftRight, ← xor_shiftRight, h]
  unfold crcRefStep
  simp only [hmix]
  by_cases hm : (p.1 ^^^ p.2) &&& 1 = 1
  · rw [if_pos hm, if_pos hm]
    apply Nat.eq_of_testBit_eq
    intro i
    have hsb := congrArg (fun x => x.testBit i) hsh
    simp only [Nat.testBit_xor] at hsb
    have key : ∀ a b c d k : Bool,
        ((a ^^ b) = (c ^^ d)) → (((a ^^ k) ^^ b) = ((c ^^ k) ^^ d)) := by decide
    simp only [Nat.testBit_xor]
    exact key _ _ _ _ _ hsb
  · rw [if_neg hm, if_neg hm]
    exact hsh

theorem crcRefSteps_xor (n : Nat) : ∀ p q : Nat × Nat, p.1 ^^^ p.2 = q.1 ^^^ q.2 →
    (crcRefSteps n p).1 ^^^ (crcRefSteps n p).2 =
      (crcRefSteps n q).1 ^^^ (crcRefSteps n q).2 := by
  induction n with
  | zero => intro p q h; exact h
  | succ m ih =>
    intro p q h
    rw [crcRefSteps, crcRefSteps]
    exact ih _ _ (crcRefStep_xor h)

theorem crc8_ref_update_xor {crc byte : Nat} (hc : crc < 256) (hb : byte < 256) :
    crc8_ref_update crc byte = crc8_ref_update 0 (crc ^^^ byte) := by
  unfold crc8_ref_update
  have h1 := crcRefSteps_xor 8 (crc, byte) (0, crc ^^^ byte) (by simp)
  have h2 : (crcRefSteps 8 (crc, byte)).2 = 0 := by
    rw [crcRefSteps_snd, Nat.shiftRight_eq_div_pow]
    exact Nat.div_eq_of_lt (by simpa using hb)
  have h3 : (crcRefSteps 8 (0, crc ^^^ byte)).2 = 0 := by
    rw [crcRefSteps_snd, Nat.shiftRight_eq_div_pow]
    have hx : crc ^^^ byte < 2 ^ 8 :=
      Nat.xor_lt_two_pow (by simpa using hc) (by simpa using hb)
    exact Nat.div_eq_of_lt hx
  rw [h2, h3] at h1
  simpa using h1

set_option maxRecDepth 20000 in
theorem crc_table_matches_ref :
    (List.range 256).all (fun x => CRC_TABLE.getD x 0 == crc8_ref_update 0 x) = true := by
  decide

set_option maxRecDepth 20000 in
theorem crc_table_entries_lt : CRC_TABLE.all (fun y => decide (y < 256)) = true := by
  decide

theorem crc_table_getD {x : Nat} (h : x < 256) :
    CRC_TABLE.getD x 0 = crc8_ref_update 0 x := by
  have hm := List.all_eq_true.mp crc_table_matches_ref x (List.mem_range.mpr h)
  exact eq_of_beq hm

set_option maxRecDepth 20000 in
theorem crc_table_length : CRC_TABLE.length = 256 := by rfl

theorem crc_table_getD_lt {x : Nat} (h : x < 256) : CRC_TABLE.getD x 0 < 256 := by
  have hlen : CRC_TABLE.length = 256 := crc_table_length
  have hx : x < CRC_TABLE.length := by omega
  rw [getD_of_lt _ hx 0]
  have := List.all_eq_true.mp crc_table_entries_lt _ (List.getElem_mem hx)
  exact of_decide_eq_true this

theorem crc_fold (bytes : List Nat) : ∀ acc : Nat, acc < 256 → (∀ b ∈ bytes, b < 256) →
    bytes.foldl (fun acc byte => CRC_TABLE.getD (byte ^^^ acc) 0) acc =
      bytes.foldl crc8_ref_update acc := by
  induction bytes with
  | nil => intro acc _ _; rfl
  | cons b rest ih =>
    intro acc hacc hmem
    have hb : b < 256 := hmem b (by simp)
    have hx : b ^^^ acc < 256 := by
      have := Nat.xor_lt_two_pow (by simpa using hb : b < 2 ^ 8)
        (by simpa using hacc : acc < 2 ^ 8)
      simpa using this
    have hstep : CRC_TABLE.getD (b ^^^ acc) 0 = crc8_ref_update acc b := by
      rw [crc_table_getD hx, crc8_ref_update_xor hacc hb, Nat.xor_comm]
    rw [List.foldl_cons, List.foldl_cons, hstep]
    exact ih _ (by rw [← hstep]; exact crc_table_getD_lt hx)
      (fun x hxm => hmem x (by simp [hxm]))

/-- C3: `compute_crc8` (the lookup-table implementation) refines the bitwise
reference Dallas/Maxim CRC-8 (polynomial x^8+x^5+x^4+1, feedback `0x8C`
LSB-first, seed 0) over the device's 8 address bytes followed by the data
payload, for all `u8` inputs. -/
theorem c3_compute_crc8_refines_bitwise (address data : List Nat)
    (h : ∀ b ∈ address ++ data, b < 256) :
    compute_crc8 address data = crc8_ref (address ++ data) := by
  unfold compute_crc8 crc8_ref
  exact crc_fold (address ++ data) 0 (by omega) h

/-- C3 witness: the table CRC equals the bitwise CRC on a concrete device
address and payload. -/
theorem c3_compute_crc8_refines_bitwise_witness :
    compute_crc8 [0x28, 1, 2, 3, 4, 5, 6, 7] [0xAB, 0x40] =
      crc8_ref ([0x28, 1, 2, 3, 4, 5, 6, 7] ++ [0xAB, 0x40]) :=
  c3_compute_crc8_refines_bitwise [0x28, 1, 2, 3, 4, 5, 6, 7] [0xAB, 0x40] (by decide)

/-! ### Textual device addresses (`Device::from_str`, `Display for Device`) -/

/-- The value of a hex digit as accepted by `u8::from_str_radix(_, 16)`
(`char::to_digit(16)`: `0-9`, `a-f`, `A-F`). -/
def hexDigitVal (c : Char) : Option Nat :=
  if '0' ≤ c ∧ c ≤ '9' then some (c.toNat - '0'.toNat)
  else if 'a' ≤ c ∧ c ≤ 'f' then some (c.toNat - 'a'.toNat + 10)
  else if 'A' ≤ c ∧ c ≤ 'F' then some (c.toNat - 'A'.toNat + 10)
  else none

/-- One step of `u8::from_str_radix(_, 16)`: absorb one digit, failing on a
non-digit or on `u8` overflow. -/
def radix16Step (acc : Option Nat) (c : Char) : Option Nat :=
  acc.bind fun a =>
    (hexDigitVal c).bind fun d =>
      if a * 16 + d < 256 then some (a * 16 + d) else none

/-- `u8::from_str_radix(s, 16)` on a character list: an optional leading `+`
(a lone sign is an error, and `-` is not treated as a sign for an unsigned
target), then at least one hex digit, with overflow checking. -/
def from_str_radix16_u8 (s : List Char) : Option Nat :=
  match s with
  | [] => none
  | c :: rest =>
    let digits := if c = '+' then rest else c :: rest
    if digits.isEmpty then none
    else digits.foldl radix16Step (some 0)

/-- `Device::from_str` (lib.rs 93-109) on a character list (the Rust source
slices byte ranges of the `&str`; byte positions and character positions
coincide on ASCII input, which is the domain of the canonical format):
inputs shorter than 23 fail via the forced `ParseIntError`; otherwise the
eight 2-character groups at offsets 0,3,...,21 are parsed as `u8` hex.
The separator positions and anything past offset 22 are never examined. -/
def from_str (s : List Char) : Option (List Nat) :=
  if s.length < 23 then none
  else
    (from_str_radix16_u8 ((s.drop 0).take 2)).bind fun b0 =>
    (from_str_radix16_u8 ((s.drop 3).take 2)).bind fun b1 =>
    (from_str_radix16_u8 ((s.drop 6).take 2)).bind fun b2 =>
    (from_str_radix16_u8 ((s.drop 9).take 2)).bind fun b3 =>
    (from_str_radix16_u8 ((s.drop 12).take 2)).bind fun b4 =>
    (from_str_radix16_u8 ((s.drop 15).take 2)).bind fun b5 =>
    (from_str_radix16_u8 ((s.drop 18).take 2)).bind fun b6 =>
    (from_str_radix16_u8 ((s.drop 21).take 2)).bind fun b7 =>
    some [b0, b1, b2, b3, b4, b5, b6, b7]

/-- Lowercase hex digit of a nibble (`{:02x}` digit alphabet). -/
def hexChar (n : Nat) : Char :=
  if n < 10 then Char.ofNat ('0'.toNat + n) else Char.ofNat ('a'.toNat + n - 10)

/-- `{:02x}` of a `u8`: exactly two lowercase hex digits. -/
def hex2 (b : Nat) : List Char := [hexChar (b / 16), hexChar (b % 16)]

/-- `Display for Device` (lib.rs 640-655): the eight bytes as `{:02x}`,
colon-separated. -/
def deviceFormat (a : List Nat) : List Char :=
  hex2 (a.getD 0 0) ++ ':' :: hex2 (a.getD 1 0) ++ ':' :: hex2 (a.getD 2 0) ++
    ':' :: hex2 (a.getD 3 0) ++ ':' :: hex2 (a.getD 4 0) ++ ':' :: hex2 (a.getD 5 0) ++
    ':' :: hex2 (a.getD 6 0) ++ ':' :: hex2 (a.getD 7 0)

/-- The canonical textual form described by the spec: exactly 23 characters,
lowercase hex everywhere except colons at positions 2, 5, ..., 20. -/
def isLowerHexDigit (c : Char) : Bool :=
  (decide ('0' ≤ c) && decide (c ≤ '9')) || (decide ('a' ≤ c) && decide (c ≤ 'f'))

def isCanonicalAddr (s : List Char) : Bool :=
  (s.length == 23) &&
    (List.range 23).all fun i =>
      if i % 3 == 2 then s.getD i ' ' == ':' else isLowerHexDigit (s.getD i ' ')

theorem option_bind_const_none {α β : Type} (o : Option α) :
    (o.bind fun _ => (none : Option β)) = none := by
  cases o <;> rfl

theorem from_str_of_groups (s : List Char) (hlen : 23 ≤ s.length)
    (b0 b1 b2 b3 b4 b5 b6 b7 : Nat)
    (h0 : from_str_radix16_u8 ((s.drop 0).take 2) = some b0)
    (h1 : from_str_radix16_u8 ((s.drop 3).take 2) = some b1)
    (h2 : from_str_radix16_u8 ((s.drop 6).take 2) = some b2)
    (h3 : from_str_radix16_u8 ((s.drop 9).take 2) = some b3)
    (h4 : from_str_radix16_u8 ((s.drop 12).take 2) = some b4)
    (h5 : from_str_radix16_u8 ((s.drop 15).take 2) = some b5)
    (h6 : from_str_radix16_u8 ((s.drop 18).take 2) = some b6)
    (h7 : from_str_radix16_u8 ((s.drop 21).take 2) = some b7) :
    from_str s = some [b0, b1, b2, b3, b4, b5, b6, b7] := by
  rw [from_str, if_neg (by omega)]
  rw [h0, h1, h2, h3, h4, h5, h6, h7]
  rfl

/-- C6 counterexample: the 23-character input of all `'0'`s deviates from the
canonical form (no colon separators) yet `from_str` succeeds on it, parsing
the all-zero address. -/
theorem c6_from_str_counterexample :
    from_str (List.replicate 23 (Char.ofNat 48)) = some [0, 0, 0, 0, 0, 0, 0, 0] ∧
    isCanonicalAddr (List.replicate 23 (Char.ofNat 48)) = false := by
  constructor
  · decide
  · decide

/-- C6 (amended): `from_str` fails exactly on inputs shorter than 23
characters or with one of the eight 2-character groups at offsets
0,3,...,21 not a valid `u8` hex token; the separator positions, letter case
and anything past offset 22 are never validated, so inputs deviating only
there still parse successfully. -/
theorem c6_from_str_amended :
    (∀ s : List Char, s.length < 23 → from_str s = none) ∧
    (∀ s : List Char, 23 ≤ s.length → ∀ b0 b1 b2 b3 b4 b5 b6 b7 : Nat,
      from_str_radix16_u8 ((s.drop 0).take 2) = some b0 →
      from_str_radix16_u8 ((s.drop 3).take 2) = some b1 →
      from_str_radix16_u8 ((s.drop 6).take 2) = some b2 →
      from_str_radix16_u8 ((s.drop 9).take 2) = some b3 →
      from_str_radix16_u8 ((s.drop 12).take 2) = some b4 →
      from_str_radix16_u8 ((s.drop 15).take 2) = some b5 →
      from_str_radix16_u8 ((s.drop 18).take 2) = some b6 →
      from_str_radix16_u8 ((s.drop 21).take 2) = some b7 →
      from_str s = some [b0, b1, b2, b3, b4, b5, b6, b7]) ∧
    (∀ s : List Char, ∀ k, k < 8 →
      from_str_radix16_u8 ((s.drop (3 * k)).take 2) = none → from_str s = none) := by
  refine ⟨?_, ?_, ?_⟩
  · intro s h
    simp [from_str, h]
  · intro s h b0 b1 b2 b3 b4 b5 b6 b7 h0 h1 h2 h3 h4 h5 h6 h7
    exact from_str_of_groups s h b0 b1 b2 b3 b4 b5 b6 b7 h0 h1 h2 h3 h4 h5 h6 h7
  · intro s k hk hnone
    rw [from_str]
    by_cases hlen : s.length < 23
    · rw [if_pos hlen]
    · rw [if_neg hlen]
      interval_cases k <;> norm_num at hnone <;>
        simp [hnone, option_bind_const_none]

/-- C6 witness: a concrete deviating-but-parsed instance of the amended
success condition (uppercase hex and `%%` separators). -/
theorem c6_from_str_amended_witness :
    from_str (Char.ofNat 65 :: Char.ofNat 66 :: Char.ofNat 37 :: -- "AB%"
        List.replicate 20 (Char.ofNat 48)) =
      some [0xAB, 0, 0, 0, 0, 0, 0, 0] :=
  c6_from_str_amended.2.1 _ (by decide) 0xAB 0 0 0 0 0 0 0 (by decide) (by decide)
    (by decide) (by decide) (by decide) (by decide) (by decide) (by decide)

theorem hexDigitVal_hexChar {n : Nat} (h : n < 16) : hexDigitVal (hexChar n) = some n := by
  interval_cases n <;> decide

theorem isLowerHexDigit_hexChar {n : Nat} (h : n < 16) :
    isLowerHexDigit (hexChar n) = true := by
  interval_cases n <;> decide

theorem hexChar_ne_plus {n : Nat} (h : n < 16) : hexChar n ≠ '+' := by
  interval_cases n <;> decide

theorem from_str_radix16_hex2 {b : Nat} (h : b < 256) :
    from_str_radix16_u8 (hex2 b) = some b := by
  have hd1 : hexDigitVal (hexChar (b / 16)) = some (b / 16) :=
    hexDigitVal_hexChar (by omega)
  have hd2 : hexDigitVal (hexChar (b % 16)) = some (b % 16) :=
    hexDigitVal_hexChar (by omega)
  have hne : hexChar (b / 16) ≠ '+' := hexChar_ne_plus (by omega)
  have e1 : 0 * 16 + b / 16 < 256 := by omega
  have e2 : b / 16 * 16 + b % 16 = b := by omega
  rw [hex2, from_str_radix16_u8]
  rw [if_neg hne]
  rw [if_neg (by simp)]
  simp only [List.foldl_cons, List.foldl_nil, radix16Step, hd1, hd2, Option.some_bind]
  rw [if_pos e1, Option.some_bind]
  have e3 : (0 * 16 + b / 16) * 16 + b % 16 = b := by omega
  rw [e3, if_pos h]

/-- C9: for every 8-byte address, the `Display` rendering is the canonical
23-character lowercase colon-separated string, and `from_str` parses it back
to exactly the same bytes — so parsing a canonical string and re-formatting
it reproduces the identical string. -/
theorem c9_device_display_roundtrip (a0 a1 a2 a3 a4 a5 a6 a7 : Nat)
    (h0 : a0 < 256) (h1 : a1 < 256) (h2 : a2 < 256) (h3 : a3 < 256)
    (h4 : a4 < 256) (h5 : a5 < 256) (h6 : a6 < 256) (h7 : a7 < 256) :
    (deviceFormat [a0, a1, a2, a3, a4, a5, a6, a7]).length = 23 ∧
    isCanonicalAddr (deviceFormat [a0, a1, a2, a3, a4, a5, a6, a7]) = true ∧
    from_str (deviceFormat [a0, a1, a2, a3, a4, a5, a6, a7]) =
      some [a0, a1, a2, a3, a4, a5, a6, a7] := by
  set fmt := deviceFormat [a0, a1, a2, a3, a4, a5, a6, a7] with hfmt
  have hlen : fmt.length = 23 := by
    rw [hfmt]
    rfl
  have d0a : isLowerHexDigit (hexChar (a0 / 16)) = true :=
    isLowerHexDigit_hexChar (by omega)
  have d0b : isLowerHexDigit (hexChar (a0 % 16)) = true :=
    isLowerHexDigit_hexChar (by omega)
  have d1a : isLowerHexDigit (hexChar (a1 / 16)) = true :=
    isLowerHexDigit_hexChar (by omega)
  have d1b : isLowerHexDigit (hexChar (a1 % 16)) = true :=
    isLowerHexDigit_hexChar (by omega)
  have d2a : isLowerHexDigit (hexChar (a2 / 16)) = true :=
    isLowerHexDigit_hexChar (by omega)
  have d2b : isLowerHexDigit (hexChar (a2 % 16)) = true :=
    isLowerHexDigit_hexChar (by omega)
  have d3a : isLowerHexDigit (hexChar (a3 / 16)) = true :=
    isLowerHexDigit_hexChar (by omega)
  have d3b : isLowerHexDigit (hexChar (a3 % 16)) = true :=
    isLowerHexDigit_hexChar (by omega)
  have d4a : isLowerHexDigit (hexChar (a4 / 16)) = true :=
    isLowerHexDigit_hexChar (by omega)
  have d4b : isLowerHexDigit (hexChar (a4 % 16)) = true :=
    isLowerHexDigit_hexChar (by omega)
  have d5a : isLowerHexDigit (hexChar (a5 / 16)) = true :=
    isLowerHexDigit_hexChar (by omega)
  have d5b : isLowerHexDigit (hexChar (a5 % 16)) = true :=
    isLowerHexDigit_hexChar (by omega)
  have d6a : isLowerHexDigit (hexChar (a6 / 16)) = true :=
    isLowerHexDigit_hexChar (by omega)
  have d6b : isLowerHexDigit (hexChar (a6 % 16)) = true :=
    isLowerHexDigit_hexChar (by omega)
  have d7a : isLowerHexDigit (hexChar (a7 / 16)) = true :=
    isLowerHexDigit_hexChar (by omega)
  have d7b : isLowerHexDigit (hexChar (a7 % 16)) = true :=
    isLowerHexDigit_hexChar (by omega)
  have g0 : from_str_radix16_u8 ((fmt.drop 0).take 2) = some a0 := by
    rw [show ((fmt.drop 0).take 2) = hex2 a0 from rfl]
    exact from_str_radix16_hex2 h0
  have g1 : from_str_radix16_u8 ((fmt.drop 3).take 2) = some a1 := by
    rw [show ((fmt.drop 3).take 2) = hex2 a1 from rfl]
    exact from_str_radix16_hex2 h1
  have g2 : from_str_radix16_u8 ((fmt.drop 6).take 2) = some a2 := by
    rw [show ((fmt.drop 6).take 2) = hex2 a2 from rfl]
    exact from_str_radix16_hex2 h2
  have g3 : from_str_radix16_u8 ((fmt.drop 9).take 2) = some a3 := by
    rw [show ((fmt.drop 9).take 2) = hex2 a3 from rfl]
    exact from_str_radix16_hex2 h3
  have g4 : from_str_radix16_u8 ((fmt.drop 12).take 2) = some a4 := by
    rw [show ((fmt.drop 12).take 2) = hex2 a4 from rfl]
    exact from_str_radix16_hex2 h4
  have g5 : from_str_radix16_u8 ((fmt.drop 15).take 2) = some a5 := by
    rw [show ((fmt.drop 15).take 2) = hex2 a5 from rfl]
    exact from_str_radix16_hex2 h5
  have g6 : from_str_radix16_u8 ((fmt.drop 18).take 2) = some a6 := by
    rw [show ((fmt.drop 18).take 2) = hex2 a6 from rfl]
    exact from_str_radix16_hex2 h6
  have g7 : from_str_radix16_u8 ((fmt.drop 21).take 2) = some a7 := by
    rw [show ((fmt.drop 21).take 2) = hex2 a7 from rfl]
    exact from_str_radix16_hex2 h7
  have hexpand : fmt = [hexChar (a0 / 16), hexChar (a0 % 16), ':', hexChar (a1 / 16), hexChar (a1 % 16), ':', hexChar (a2 / 16), hexChar (a2 % 16), ':', hexChar (a3 / 16), hexChar (a3 % 16), ':', hexChar (a4 / 16), hexChar (a4 % 16), ':', hexChar (a5 / 16), hexChar (a5 % 16), ':', hexChar (a6 / 16), hexChar (a6 % 16), ':', hexChar (a7 / 16), hexChar (a7 % 16)] := rfl
  refine ⟨hlen, ?_, ?_⟩
  · rw [hexpand, isCanonicalAddr, Bool.and_eq_true]
    refine ⟨by rfl, ?_⟩
    rw [List.all_eq_true]
    intro i hi
    fin_cases hi <;>
      simp [d0a, d0b, d1a, d1b, d2a, d2b, d3a, d3b, d4a, d4b, d5a, d5b, d6a, d6b,
        d7a, d7b]
  · rw [from_str, if_neg (by omega)]
    rw [g0, g1, g2, g3, g4, g5, g6, g7]
    rfl

/-- C9 witness: the round trip at a concrete address. -/
theorem c9_device_display_roundtrip_witness :
    (deviceFormat [0x28, 0xcd, 3, 0x4a, 0, 0xff, 6, 0x99]).length = 23 ∧
    isCanonicalAddr (deviceFormat [0x28, 0xcd, 3, 0x4a, 0, 0xff, 6, 0x99]) = true ∧
    from_str (deviceFormat [0x28, 0xcd, 3, 0x4a, 0, 0xff, 6, 0x99]) =
      some [0x28, 0xcd, 3, 0x4a, 0, 0xff, 6, 0x99] :=
  c9_device_display_roundtrip 0x28 0xcd 3 0x4a 0 0xff 6 0x99 (by decide) (by decide)
    (by decide) (by decide) (by decide) (by decide) (by decide) (by decide)

/-! ### The transmission order on 64-bit ROM values (C1) -/

/-- Bits of `d` and `m` agree on every position `lo ≤ k < hi`. -/
def matchBetween (lo hi d m : Nat) : Prop :=
  ∀ k, lo ≤ k → k < hi → d.testBit k = m.testBit k

/-- Strict LSB-first lexicographic order restricted to bit positions `≥ i`:
at the first position `≥ i` where `a` and `b` differ, `a` has 0 and `b`
has 1. -/
def ltFrom (i a b : Nat) : Prop :=
  ∃ j, i ≤ j ∧ matchBetween i j a b ∧ a.testBit j = false ∧ b.testBit j = true

/-- The transmission order: the order in which the Dallas binary-tree search
walks ROM values (bit 0 is sent first and the 0 branch is explored first).
Equivalently: ascending order of the bit-reversed 64-bit values. -/
def ltS (a b : Nat) : Prop := ltFrom 0 a b

theorem matchBetween_refl (lo hi a : Nat) : matchBetween lo hi a a :=
  fun _ _ _ => rfl

theorem matchBetween_symm {lo hi a b : Nat} (h : matchBetween lo hi a b) :
    matchBetween lo hi b a :=
  fun k h1 h2 => (h k h1 h2).symm

theorem matchBetween_trans {lo hi a b c : Nat} (h1 : matchBetween lo hi a b)
    (h2 : matchBetween lo hi b c) : matchBetween lo hi a c :=
  fun k hk1 hk2 => (h1 k hk1 hk2).trans (h2 k hk1 hk2)

theorem matchBetween_mono {lo hi lo' hi' a b : Nat} (h : matchBetween lo hi a b)
    (hl : lo ≤ lo') (hh : hi' ≤ hi) : matchBetween lo' hi' a b :=
  fun k hk1 hk2 => h k (by omega) (by omega)

theorem ltFrom_irrefl (i a : Nat) : ¬ ltFrom i a a := by
  rintro ⟨j, _, _, hf, ht⟩
  rw [hf] at ht
  exact Bool.false_ne_true ht

theorem ltFrom_asymm {i a b : Nat} (h1 : ltFrom i a b) (h2 : ltFrom i b a) : False := by
  obtain ⟨j1, hj1, hm1, ha1, hb1⟩ := h1
  obtain ⟨j2, hj2, hm2, hb2, ha2⟩ := h2
  rcases Nat.lt_trichotomy j1 j2 with h | h | h
  · have := hm2 j1 hj1 h
    rw [hb1, ha1] at this
    exact Bool.false_ne_true this.symm
  · subst h
    rw [hb1] at hb2
    exact Bool.false_ne_true hb2.symm
  · have := hm1 j2 hj2 h
    rw [ha2, hb2] at this
    exact Bool.false_ne_true this.symm

theorem ltFrom_trans {i a b c : Nat} (h1 : ltFrom i a b) (h2 : ltFrom i b c) :
    ltFrom i a c := by
  obtain ⟨j1, hj1, hm1, ha1, hb1⟩ := h1
  obtain ⟨j2, hj2, hm2, hb2, hc2⟩ := h2
  rcases Nat.lt_trichotomy j1 j2 with h | h | h
  · refine ⟨j1, hj1, ?_, ha1, ?_⟩
    · exact matchBetween_trans hm1 (matchBetween_mono hm2 (le_refl i) (by omega))
    · rw [← hm2 j1 hj1 h]
      exact hb1
  · subst h
    rw [hb1] at hb2
    exact absurd hb2.symm Bool.false_ne_true
  · refine ⟨j2, hj2, ?_, ?_, hc2⟩
    · exact matchBetween_trans (matchBetween_mono hm1 (le_refl i) (by omega)) hm2
    · rw [hm1 j2 hj2 h]
      exact hb2

theorem ltFrom_of_agree_lt {i j a b : Nat} (hij : i ≤ j)
    (h : ∀ k, i ≤ k → k < j → a.testBit k = b.testBit k) (hj : ltFrom j a b) :
    ltFrom i a b := by
  obtain ⟨l, hl, hm, haf, hbt⟩ := hj
  refine ⟨l, by omega, ?_, haf, hbt⟩
  intro k hk1 hk2
  by_cases hkj : k < j
  · exact h k hk1 hkj
  · exact hm k (by omega) hk2

/-- Totality of the transmission order on distinct values. -/
theorem ltS_total {a b : Nat} (hne : a ≠ b) : ltS a b ∨ ltS b a := by
  have hex : ∃ j, ¬ (a.testBit j = b.testBit j) := by
    by_contra hc
    push_neg at hc
    exact hne (Nat.eq_of_testBit_eq fun j => hc j)
  have hj := Nat.find_spec hex
  have hmin : ∀ k, k < Nat.find hex → a.testBit k = b.testBit k := by
    intro k hk
    have := Nat.find_min hex hk
    exact not_not.mp this
  cases hab : a.testBit (Nat.find hex) with
  | false =>
    left
    refine ⟨Nat.find hex, Nat.zero_le _, fun k _ hk => hmin k hk, hab, ?_⟩
    cases hb : b.testBit (Nat.find hex) with
    | false => exact absurd (hab.trans hb.symm) hj
    | true => rfl
  | true =>
    right
    refine ⟨Nat.find hex, Nat.zero_le _, fun k _ hk => (hmin k hk).symm, ?_, hab⟩
    cases hb : b.testBit (Nat.find hex) with
    | false => rfl
    | true => exact absurd (hab.trans hb.symm) hj

theorem testBit_ge_64 {b : Nat} (hb : b < 2 ^ 64) {j : Nat} (hj : 64 ≤ j) :
    b.testBit j = false :=
  Nat.testBit_lt_two_pow (lt_of_lt_of_le hb (Nat.pow_le_pow_right (by omega) hj))

/-- A transmission-order witness position is below 64 when the larger value
is a 64-bit value. -/
theorem ltFrom_witness_lt {i a b : Nat} (h : ltFrom i a b) (hb : b < 2 ^ 64) :
    ∃ j, i ≤ j ∧ j < 64 ∧ matchBetween i j a b ∧
      a.testBit j = false ∧ b.testBit j = true := by
  obtain ⟨j, hj, hm, haf, hbt⟩ := h
  refine ⟨j, hj, ?_, hm, haf, hbt⟩
  by_contra hge
  rw [testBit_ge_64 hb (by omega)] at hbt
  exact Bool.false_ne_true hbt

/-! ### The search invariant -/

def romWF (rom : DeviceSearch) : Prop :=
  ByteArrOk rom.address ∧ ByteArrOk rom.discrepancies

/-- The pending-branch predicate: position `i` holds an unexplored fork iff
the found device `f` took the 0 branch there while some device on the bus
matches `f` below `i` and has a 1 at `i`. -/
def discPred (D : List Nat) (f : Nat) (i : Nat) : Prop :=
  i < 64 ∧ f.testBit i = false ∧ ∃ d ∈ D, matchBetween 0 i d f ∧ d.testBit i = true

/-- The invariant holding between successful search calls, for the last
found device `f`. -/
def INV (D : List Nat) (rom : DeviceSearch) (f : Nat) : Prop :=
  romWF rom ∧
  (∀ i, i < 64 → rom.is_bit_set_in_address i = f.testBit i) ∧
  (∀ i, rom.is_bit_set_in_discrepancies i = true ↔ discPred D f i) ∧
  (rom.state = SearchState.End ↔ ∀ i, ¬ discPred D f i) ∧
  rom.state ≠ SearchState.Initialized ∧
  f ∈ D

/-! ### `addrVal` agrees with the bit accessors -/

theorem is_bit_set_cons_ge_8 (b : Nat) (rest : List Nat) {i : Nat} (hi : 8 ≤ i) :
    is_bit_set (b :: rest) i = is_bit_set rest (i - 8) := by
  unfold is_bit_set
  by_cases hg : i / 8 ≥ (b :: rest).length
  · rw [if_pos hg, if_pos (by simp at hg; omega)]
  · rw [if_neg hg, if_neg (by simp at hg ⊢; omega)]
    have hdiv : i / 8 = (i - 8) / 8 + 1 := by omega
    have hmod : i % 8 = (i - 8) % 8 := by omega
    rw [hdiv, hmod]
    rfl

theorem is_bit_set_cons_lt_8 (b : Nat) (rest : List Nat) {i : Nat} (hi : i < 8) :
    is_bit_set (b :: rest) i = b.testBit i := by
  have hlt : i / 8 < (b :: rest).length := by simp; omega
  rw [is_bit_set_eq_testBit hlt]
  have h0 : i / 8 = 0 := by omega
  have h1 : i % 8 = i := by omega
  rw [h0, h1]
  rfl

theorem addrVal_testBit (a : List Nat) (hmem : ∀ b ∈ a, b < 256) (i : Nat) :
    (addrVal a).testBit i = is_bit_set a i := by
  induction a generalizing i with
  | nil =>
    show (0 : Nat).testBit i = is_bit_set [] i
    rw [Nat.zero_testBit, is_bit_set_of_ge (by simp)]
  | cons b rest ih =>
    have hb : b < 256 := hmem b (by simp)
    have hval : addrVal (b :: rest) = 2 ^ 8 * addrVal rest + b := by
      show b + 256 * addrVal rest = 2 ^ 8 * addrVal rest + b
      omega
    rw [hval, Nat.testBit_mul_pow_two_add _ (by simpa using hb) i]
    by_cases hi : i < 8
    · rw [if_pos hi, is_bit_set_cons_lt_8 b rest hi]
    · rw [if_neg hi, is_bit_set_cons_ge_8 b rest (by omega),
        ih (fun x hx => hmem x (by simp [hx])) (i - 8)]

theorem addrVal_lt (a : List Nat) (hmem : ∀ b ∈ a, b < 256) :
    addrVal a < 2 ^ (8 * a.length) := by
  induction a with
  | nil => show 0 < 2 ^ (8 * 0); simp
  | cons b rest ih =>
    have hb : b < 256 := hmem b (by simp)
    have hr : addrVal rest < 2 ^ (8 * rest.length) :=
      ih fun x hx => hmem x (by simp [hx])
    show b + 256 * addrVal rest < 2 ^ (8 * (rest.length + 1))
    have : 2 ^ (8 * (rest.length + 1)) = 256 * 2 ^ (8 * rest.length) := by
      rw [Nat.mul_add, Nat.pow_add]
      ring
    rw [this]
    nlinarith

theorem addrVal_eq_of_bits {a : List Nat} (ha : ByteArrOk a) {f : Nat}
    (hf : f < 2 ^ 64) (h : ∀ i, i < 64 → is_bit_set a i = f.testBit i) :
    addrVal a = f := by
  apply Nat.eq_of_testBit_eq
  intro i
  by_cases hi : i < 64
  · rw [addrVal_testBit a ha.2 i, h i hi]
  · rw [addrVal_testBit a ha.2 i, is_bit_set_of_ge (by rw [ha.1]; omega),
      testBit_ge_64 hf (by omega)]

/-! ### Simulated-bus slot semantics -/

theorem busBit0_eq_true {cand : List Nat} {i : Nat} :
    busBit0 cand i = true ↔ ∀ d ∈ cand, d.testBit i = true := by
  simp [busBit0, List.all_eq_true]

theorem busBit1_eq_true {cand : List Nat} {i : Nat} :
    busBit1 cand i = true ↔ ∀ d ∈ cand, d.testBit i = false := by
  simp [busBit1, List.all_eq_true]

theorem mem_busWrite {cand : List Nat} {i : Nat} {b : Bool} {d : Nat} :
    d ∈ busWrite cand i b ↔ d ∈ cand ∧ d.testBit i = b := by
  simp [busWrite, List.mem_filter]

theorem busWrite_sublist (cand : List Nat) (i : Nat) (b : Bool) :
    (busWrite cand i b).Sublist cand :=
  List.filter_sublist cand

theorem not_both_bits {cand : List Nat} {i : Nat} (hne : cand ≠ []) :
    ¬ (busBit0 cand i = true ∧ busBit1 cand i = true) := by
  rintro ⟨h0, h1⟩
  obtain ⟨d, hd⟩ := List.exists_mem_of_ne_nil cand hne
  have := busBit0_eq_true.mp h0 d hd
  have := busBit1_eq_true.mp h1 d hd
  simp_all

/-! ### Search-struct update lemmas -/

theorem write_bit_state (rom : DeviceSearch) (j : Nat) (b : Bool) :
    (rom.write_bit_in_address j b).state = rom.state := by
  unfold DeviceSearch.write_bit_in_address
  split <;> rfl

theorem write_bit_disc (rom : DeviceSearch) (j : Nat) (b : Bool) :
    (rom.write_bit_in_address j b).discrepancies = rom.discrepancies := by
  unfold DeviceSearch.write_bit_in_address
  split <;> rfl

theorem is_bit_set_write_bit {rom : DeviceSearch} (h : rom.address.length = 8)
    {i j : Nat} (hi : i < 64) (hj : j < 64) (b : Bool) :
    (rom.write_bit_in_address j b).is_bit_set_in_address i =
      if i = j then b else rom.is_bit_set_in_address i := by
  unfold DeviceSearch.write_bit_in_address
  cases b with
  | false =>
    show is_bit_set (reset_bit rom.address j) i = _
    rw [is_bit_set_reset_bit h hi hj]
    by_cases heq : i = j <;>
      simp [heq, DeviceSearch.is_bit_set_in_address]
  | true =>
    show is_bit_set (set_bit rom.address j) i = _
    rw [is_bit_set_set_bit h hi hj]
    by_cases heq : i = j <;>
      simp [heq, DeviceSearch.is_bit_set_in_address]

theorem romWF_write_bit {rom : DeviceSearch} (h : romWF rom) (j : Nat) (b : Bool) :
    romWF (rom.write_bit_in_address j b) := by
  unfold DeviceSearch.write_bit_in_address
  split
  · exact ⟨h.1.set_bit j, h.2⟩
  · exact ⟨h.1.reset_bit j, h.2⟩

theorem romWF_set_disc {rom : DeviceSearch} (h : romWF rom) (j : Nat) :
    romWF (rom.set_bit_in_discrepancy j) :=
  ⟨h.1, h.2.set_bit j⟩

theorem romWF_reset_disc {rom : DeviceSearch} (h : romWF rom) (j : Nat) :
    romWF (rom.reset_bit_in_discrepancy j) :=
  ⟨h.1, h.2.reset_bit j⟩

theorem romWF_set_addr {rom : DeviceSearch} (h : romWF rom) (j : Nat) :
    romWF (rom.set_bit_in_address j) :=
  ⟨h.1.set_bit j, h.2⟩

theorem romWF_reset_addr {rom : DeviceSearch} (h : romWF rom) (j : Nat) :
    romWF (rom.reset_bit_in_address j) :=
  ⟨h.1.reset_bit j, h.2⟩

/-! ### Correctness of the discovery loop (heart of C1)

Running the discovery loop from position `i` on a non-empty candidate list,
with no resume point at or above `i` and no stale discrepancy bits at or
above `i`, completes the round, writes the transmission-order minimum `m` of
the candidates into the address bits `≥ i`, and records exactly the fork
positions of `m`'s path in the discrepancy bitmap. -/

/-- Preconditions of the discovery loop entered at bit `i`. -/
def DiscHyps (i : Nat) (cand : List Nat) (rom : DeviceSearch) (ld : Option Nat) : Prop :=
  cand ≠ [] ∧ (∀ d ∈ cand, d < 2 ^ 64) ∧ (∀ j, i ≤ j → ld ≠ some j) ∧
    (∀ j, i ≤ j → rom.is_bit_set_in_discrepancies j = false) ∧ romWF rom

/-- Postcondition of the discovery loop entered at bit `i`. -/
def DiscConc (i : Nat) (cand : List Nat) (rom : DeviceSearch) (dfound : Bool)
    (res : DeviceSearch × Option Bool) : Prop :=
  ∃ m dfound',
    res.2 = some dfound' ∧
    m ∈ cand ∧
    (∀ d ∈ cand, ¬ ltFrom i d m) ∧
    romWF res.1 ∧
    res.1.state = rom.state ∧
    (∀ j, j < i → res.1.is_bit_set_in_address j = rom.is_bit_set_in_address j) ∧
    (∀ j, i ≤ j → j < 64 → res.1.is_bit_set_in_address j = m.testBit j) ∧
    (∀ j, j < i →
      res.1.is_bit_set_in_discrepancies j = rom.is_bit_set_in_discrepancies j) ∧
    (∀ j, i ≤ j →
      (res.1.is_bit_set_in_discrepancies j = true ↔
        j < 64 ∧ m.testBit j = false ∧
          ∃ d ∈ cand, matchBetween i j d m ∧ d.testBit j = true)) ∧
    (dfound' = true ↔
      dfound = true ∨ ∃ j, i ≤ j ∧ res.1.is_bit_set_in_discrepancies j = true)

/-- The loop specification from position `i = 64 - n`. -/
def DiscSpec (n : Nat) : Prop :=
  ∀ i : Nat, i + n = 64 →
  ∀ (cand : List Nat) (rom : DeviceSearch) (dfound : Bool) (ld : Option Nat),
    DiscHyps i cand rom ld →
    DiscConc i cand rom dfound (discLoop (List.range' i n) cand rom dfound ld)

theorem discSpec_zero : DiscSpec 0 := by
  intro i hi64 cand rom dfound ld ⟨hne, hbound, hld, hdisc, hwf⟩
  obtain ⟨m, hm⟩ := List.exists_mem_of_ne_nil cand hne
  refine ⟨m, dfound, by simp [discLoop], hm, ?_, hwf, rfl, fun j _ => rfl,
    fun j hj1 hj2 => by omega, fun j _ => rfl, ?_, ?_⟩
  · intro d hd hlt
    obtain ⟨j, hj, _, _, hmt⟩ := hlt
    rw [testBit_ge_64 (hbound m hm) (by omega)] at hmt
    exact Bool.false_ne_true hmt
  · intro j hj
    show rom.is_bit_set_in_discrepancies j = true ↔ _
    rw [hdisc j hj]
    constructor
    · intro h
      exact absurd h (by simp)
    · rintro ⟨hj64, _⟩
      omega
  · constructor
    · intro h
      exact Or.inl h
    · rintro (h | ⟨j, hj, hset⟩)
      · exact h
      · show dfound = true
        rw [show (discLoop (List.range' i 0) cand rom dfound ld).1 = rom by
          simp [discLoop]] at hset
        rw [hdisc j hj] at hset
        exact absurd hset (by simp)

/-- The echo case: every candidate agrees on bit `i` (value `b`); the loop
writes `b` into the address and keeps every candidate. -/
theorem discLoop_echo (n : Nat) (ih : DiscSpec n) (i : Nat) (hi64 : i + (n + 1) = 64)
    (cand : List Nat) (rom : DeviceSearch) (dfound : Bool) (ld : Option Nat)
    (hh : DiscHyps i cand rom ld) (b : Bool) (hall : ∀ d ∈ cand, d.testBit i = b) :
    DiscConc i cand rom dfound
      (discLoop (List.range' (i + 1) n) (busWrite cand i b)
        (rom.write_bit_in_address i b) dfound ld) := by
  obtain ⟨hne, hbound, hld, hdisc, hwf⟩ := hh
  have hi : i < 64 := by omega
  have hlen_addr : rom.address.length = 8 := hwf.1.1
  have hmem1 : ∀ d, d ∈ busWrite cand i b ↔ d ∈ cand := by
    intro d
    rw [mem_busWrite]
    exact ⟨fun h => h.1, fun h => ⟨h, hall d h⟩⟩
  have hh1 : DiscHyps (i + 1) (busWrite cand i b) (rom.write_bit_in_address i b) ld := by
    refine ⟨?_, ?_, ?_, ?_, romWF_write_bit hwf i b⟩
    · obtain ⟨d, hd⟩ := List.exists_mem_of_ne_nil cand hne
      exact List.ne_nil_of_mem ((hmem1 d).mpr hd)
    · intro d hd
      exact hbound d ((hmem1 d).mp hd)
    · intro j hj
      exact hld j (by omega)
    · intro j hj
      show is_bit_set (rom.write_bit_in_address i b).discrepancies j = false
      rw [write_bit_disc]
      exact hdisc j (by omega)
  obtain ⟨m, dfound', heq, hm1, hmin1, hwf', hstate', haddrlt, haddrge, hdisclt,
    hdiscge, hdf⟩ := ih (i + 1) (by omega) _ _ dfound ld hh1
  have hmb : m.testBit i = b := hall m ((hmem1 m).mp hm1)
  have hres_disc_i :
      (discLoop (List.range' (i + 1) n) (busWrite cand i b)
        (rom.write_bit_in_address i b) dfound ld).1.is_bit_set_in_discrepancies i
        = false := by
    rw [hdisclt i (by omega)]
    show is_bit_set (rom.write_bit_in_address i b).discrepancies i = false
    rw [write_bit_disc]
    exact hdisc i (le_refl i)
  refine ⟨m, dfound', heq, (hmem1 m).mp hm1, ?_, hwf', ?_, ?_, ?_, ?_, ?_, ?_⟩
  · -- minimality over the full candidate list
    intro d hd hlt
    obtain ⟨j, hj, hmatch, hdf2, hmt⟩ := hlt
    by_cases hji : j = i
    · subst hji
      rw [hall d hd] at hdf2
      rw [hmb] at hmt
      rw [hdf2] at hmt
      exact Bool.false_ne_true hmt
    · exact hmin1 d ((hmem1 d).mpr hd)
        ⟨j, by omega, matchBetween_mono hmatch (by omega) (le_refl j), hdf2, hmt⟩
  · rw [hstate']
    exact write_bit_state rom i b
  · intro j hj
    rw [haddrlt j (by omega)]
    show (rom.write_bit_in_address i b).is_bit_set_in_address j = _
    rw [is_bit_set_write_bit hlen_addr (by omega) hi b, if_neg (by omega)]
  · intro j hj1 hj2
    by_cases hji : j = i
    · subst hji
      rw [haddrlt j (by omega)]
      show (rom.write_bit_in_address j b).is_bit_set_in_address j = _
      rw [is_bit_set_write_bit hlen_addr (by omega) hi b, if_pos rfl, hmb]
    · exact haddrge j (by omega) hj2
  · intro j hj
    rw [hdisclt j (by omega)]
    show is_bit_set (rom.write_bit_in_address i b).discrepancies j = _
    rw [write_bit_disc]
    rfl
  · intro j hj
    by_cases hji : j = i
    · subst hji
      rw [hres_disc_i]
      constructor
      · intro h
        exact absurd h (by simp)
      · rintro ⟨h64, hmf, d, hd, hmatch, hdt⟩
        rw [hall d hd] at hdt
        rw [hmb] at hmf
        rw [hmf] at hdt
        exact absurd hdt (by simp)
    · have hjgt : i + 1 ≤ j := by omega
      rw [hdiscge j hjgt]
      constructor
      · rintro ⟨h64, hmf, d, hd, hmatch, hdt⟩
        refine ⟨h64, hmf, d, (hmem1 d).mp hd, ?_, hdt⟩
        intro k hk1 hk2
        by_cases hki : k = i
        · subst hki
          rw [hall d ((hmem1 d).mp hd), hmb]
        · exact hmatch k (by omega) hk2
      · rintro ⟨h64, hmf, d, hd, hmatch, hdt⟩
        exact ⟨h64, hmf, d, (hmem1 d).mpr hd,
          matchBetween_mono hmatch (by omega) (le_refl j), hdt⟩
  · rw [hdf]
    constructor
    · rintro (h | ⟨j, hj, hset⟩)
      · exact Or.inl h
      · exact Or.inr ⟨j, by omega, hset⟩
    · rintro (h | ⟨j, hj, hset⟩)
      · exact Or.inl h
      · by_cases hji : j = i
        · subst hji
          rw [hres_disc_i] at hset
          exact absurd hset (by simp)
        · exact Or.inr ⟨j, by omega, hset⟩

/-- The fork case: candidates disagree on bit `i`; the loop records a new
discrepancy, takes the 0 branch and keeps the 0-candidates. -/
theorem discLoop_fork (n : Nat) (ih : DiscSpec n) (i : Nat) (hi64 : i + (n + 1) = 64)
    (cand : List Nat) (rom : DeviceSearch) (dfound : Bool) (ld : Option Nat)
    (hh : DiscHyps i cand rom ld)
    (hb0 : busBit0 cand i = false) (hb1 : busBit1 cand i = false) :
    DiscConc i cand rom dfound
      (discLoop (List.range' (i + 1) n) (busWrite cand i false)
        ((rom.set_bit_in_discrepancy i).reset_bit_in_address i) true ld) := by
  obtain ⟨hne, hbound, hld, hdisc, hwf⟩ := hh
  have hi : i < 64 := by omega
  have hlen_addr : rom.address.length = 8 := hwf.1.1
  have hlen_disc : rom.discrepancies.length = 8 := hwf.2.1
  have hex0 : ∃ d ∈ cand, d.testBit i = false := by
    by_contra hc
    push_neg at hc
    have hforall : ∀ d ∈ cand, d.testBit i = true := by
      intro d hd
      cases h : d.testBit i with
      | false => exact absurd h (hc d hd)
      | true => rfl
    rw [busBit0_eq_true.mpr hforall] at hb0
    exact Bool.false_ne_true hb0.symm
  have hex1 : ∃ d ∈ cand, d.testBit i = true := by
    by_contra hc
    push_neg at hc
    have hforall : ∀ d ∈ cand, d.testBit i = false := by
      intro d hd
      cases h : d.testBit i with
      | true => exact absurd h (hc d hd)
      | false => rfl
    rw [busBit1_eq_true.mpr hforall] at hb1
    exact Bool.false_ne_true hb1.symm
  have hmem1 : ∀ d, d ∈ busWrite cand i false ↔ d ∈ cand ∧ d.testBit i = false := by
    intro d
    rw [mem_busWrite]
  have hh1 : DiscHyps (i + 1) (busWrite cand i false)
      ((rom.set_bit_in_discrepancy i).reset_bit_in_address i) ld := by
    refine ⟨?_, ?_, ?_, ?_, romWF_reset_addr (romWF_set_disc hwf i) i⟩
    · obtain ⟨d0, hd0, hd0b⟩ := hex0
      exact List.ne_nil_of_mem ((hmem1 d0).mpr ⟨hd0, hd0b⟩)
    · intro d hd
      exact hbound d ((hmem1 d).mp hd).1
    · intro j hj
      exact hld j (by omega)
    · intro j hj
      show is_bit_set (set_bit rom.discrepancies i) j = false
      by_cases hj64 : j < 64
      · have hdj : is_bit_set rom.discrepancies j = false := hdisc j (by omega)
        rw [is_bit_set_set_bit hlen_disc hj64 hi, hdj]
        simp [show ¬ j = i by omega]
      · exact is_bit_set_of_ge (by rw [length_set_bit, hlen_disc]; omega)
  obtain ⟨m, dfound', heq, hm1, hmin1, hwf', hstate', haddrlt, haddrge, hdisclt,
    hdiscge, hdf⟩ := ih (i + 1) (by omega) _ _ true ld hh1
  have hm_cand : m ∈ cand := ((hmem1 m).mp hm1).1
  have hmb : m.testBit i = false := ((hmem1 m).mp hm1).2
  have hres_disc_i :
      (discLoop (List.range' (i + 1) n) (busWrite cand i false)
        ((rom.set_bit_in_discrepancy i).reset_bit_in_address i) true
        ld).1.is_bit_set_in_discrepancies i = true := by
    rw [hdisclt i (by omega)]
    show is_bit_set (set_bit rom.discrepancies i) i = true
    rw [is_bit_set_set_bit hlen_disc hi hi]
    simp
  refine ⟨m, dfound', heq, hm_cand, ?_, hwf', ?_, ?_, ?_, ?_, ?_, ?_⟩
  · intro d hd hlt
    obtain ⟨j, hj, hmatch, hdf2, hmt⟩ := hlt
    by_cases hji : j = i
    · subst hji
      rw [hmb] at hmt
      exact Bool.false_ne_true hmt
    · have hdi : d.testBit i = false := by
        have hmm := hmatch i (le_refl i) (by omega)
        rw [hmb] at hmm
        exact hmm
      exact hmin1 d ((hmem1 d).mpr ⟨hd, hdi⟩)
        ⟨j, by omega, matchBetween_mono hmatch (by omega) (le_refl j), hdf2, hmt⟩
  · exact hstate'
  · intro j hj
    rw [haddrlt j (by omega)]
    show is_bit_set (reset_bit rom.address i) j = _
    rw [is_bit_set_reset_bit hlen_addr (by omega) hi]
    simp [DeviceSearch.is_bit_set_in_address, show ¬ j = i by omega]
  · intro j hj1 hj2
    by_cases hji : j = i
    · rw [hji, haddrlt i (by omega), hmb]
      show is_bit_set (reset_bit rom.address i) i = false
      rw [is_bit_set_reset_bit hlen_addr hi hi]
      simp
    · exact haddrge j (by omega) hj2
  · intro j hj
    rw [hdisclt j (by omega)]
    show is_bit_set (set_bit rom.discrepancies i) j = _
    rw [is_bit_set_set_bit hlen_disc (by omega) hi]
    simp [DeviceSearch.is_bit_set_in_discrepancies, show ¬ j = i by omega]
  · intro j hj
    by_cases hji : j = i
    · subst hji
      rw [hres_disc_i]
      constructor
      · intro _
        obtain ⟨d1, hd1, hd1t⟩ := hex1
        exact ⟨hi, hmb, d1, hd1, fun k hk1 hk2 => absurd hk2 (by omega), hd1t⟩
      · intro _
        rfl
    · have hjgt : i + 1 ≤ j := by omega
      rw [hdiscge j hjgt]
      constructor
      · rintro ⟨h64, hmf, d, hd, hmatch, hdt⟩
        refine ⟨h64, hmf, d, ((hmem1 d).mp hd).1, ?_, hdt⟩
        intro k hk1 hk2
        by_cases hki : k = i
        · subst hki
          rw [((hmem1 d).mp hd).2, hmb]
        · exact hmatch k (by omega) hk2
      · rintro ⟨h64, hmf, d, hd, hmatch, hdt⟩
        have hdi : d.testBit i = false := by
          have hmm := hmatch i (le_refl i) (by omega)
          rw [hmb] at hmm
          exact hmm
        exact ⟨h64, hmf, d, (hmem1 d).mpr ⟨hd, hdi⟩,
          matchBetween_mono hmatch (by omega) (le_refl j), hdt⟩
  · have hdt' : dfound' = true := hdf.mpr (Or.inl rfl)
    rw [hdt']
    constructor
    · intro _
      exact Or.inr ⟨i, le_refl i, hres_disc_i⟩
    · intro _
      rfl

/-- Full specification of the discovery loop, by downward induction on the
remaining bit count. -/
theorem discSpec_all : ∀ n, DiscSpec n := by
  intro n
  induction n with
  | zero => exact discSpec_zero
  | succ m ih =>
    intro i hi64 cand rom dfound ld hh
    obtain ⟨hne, hbound, hld, hdisc, hwf⟩ := hh
    rw [List.range'_succ]
    have hstep : discLoop (i :: List.range' (i + 1) m) cand rom dfound ld =
        (if ld = some i then
          discLoop (List.range' (i + 1) m) (busWrite cand i true)
            ((rom.reset_bit_in_discrepancy i).set_bit_in_address i) dfound ld
        else if busBit0 cand i && busBit1 cand i then (rom, none)
        else if !busBit0 cand i && !busBit1 cand i then
          discLoop (List.range' (i + 1) m) (busWrite cand i false)
            ((rom.set_bit_in_discrepancy i).reset_bit_in_address i) true ld
        else
          discLoop (List.range' (i + 1) m) (busWrite cand i (busBit0 cand i))
            (rom.write_bit_in_address i (busBit0 cand i)) dfound ld) := rfl
    rw [hstep, if_neg (hld i (le_refl i))]
    cases hb0 : busBit0 cand i with
    | true =>
      cases hb1 : busBit1 cand i with
      | true => exact absurd ⟨hb0, hb1⟩ (not_both_bits hne)
      | false =>
        rw [if_neg (by simp), if_neg (by simp)]
        exact discLoop_echo m ih i hi64 cand rom dfound ld
          ⟨hne, hbound, hld, hdisc, hwf⟩ true (busBit0_eq_true.mp hb0)
    | false =>
      cases hb1 : busBit1 cand i with
      | true =>
        rw [if_neg (by simp), if_neg (by simp)]
        exact discLoop_echo m ih i hi64 cand rom dfound ld
          ⟨hne, hbound, hld, hdisc, hwf⟩ false (busBit1_eq_true.mp hb1)
      | false =>
        rw [if_neg (by simp), if_pos (by simp)]
        exact discLoop_fork m ih i hi64 cand rom dfound ld
          ⟨hne, hbound, hld, hdisc, hwf⟩ hb0 hb1

/-! ### Replay-phase correctness -/

theorem mem_range'_zero {j k : Nat} : j ∈ List.range' 0 k ↔ j < k := by
  rw [List.mem_range']
  constructor
  · rintro ⟨i, hi, rfl⟩
    omega
  · intro h
    exact ⟨j, h, by omega⟩

theorem replayLoop_spec : ∀ (k s : Nat) (cand : List Nat) (rom : DeviceSearch) (w : Nat),
    w ∈ cand →
    (∀ j, s ≤ j → j < s + k → w.testBit j = rom.is_bit_set_in_address j) →
    replayLoop (List.range' s k) cand rom =
      some (cand.filter fun d =>
        (List.range' s k).all fun j => d.testBit j == rom.is_bit_set_in_address j) := by
  intro k
  induction k with
  | zero =>
    intro s cand rom w hw hmatch
    simp [replayLoop]
  | succ m ih =>
    intro s cand rom w hw hmatch
    rw [List.range'_succ]
    have hcond : ¬ (busBit0 cand s && busBit1 cand s) = true := by
      intro hc
      rw [Bool.and_eq_true] at hc
      exact not_both_bits (List.ne_nil_of_mem hw) ⟨hc.1, hc.2⟩
    rw [show replayLoop (s :: List.range' (s + 1) m) cand rom =
        (if busBit0 cand s && busBit1 cand s then none
         else replayLoop (List.range' (s + 1) m)
           (busWrite cand s (rom.is_bit_set_in_address s)) rom) from rfl]
    rw [if_neg hcond]
    have hw1 : w ∈ busWrite cand s (rom.is_bit_set_in_address s) :=
      mem_busWrite.mpr ⟨hw, hmatch s (le_refl s) (by omega)⟩
    rw [ih (s + 1) _ rom w hw1 fun j hj1 hj2 => hmatch j (by omega) (by omega)]
    congr 1
    rw [busWrite, List.filter_filter]
    apply List.filter_congr
    intro d hd
    rw [List.all_cons]
    exact Bool.and_comm _ _

/-! ### `last_discrepancy` of a struct with a set bit -/

theorem disc_bit_lt_64 {rom : DeviceSearch} (hlen : rom.discrepancies.length = 8)
    {i : Nat} (h : rom.is_bit_set_in_discrepancies i = true) : i < 64 := by
  by_contra hge
  rw [show rom.is_bit_set_in_discrepancies i = is_bit_set rom.discrepancies i from rfl,
    is_bit_set_of_ge (by omega)] at h
  exact Bool.false_ne_true h

theorem last_discrepancy_of_set {rom : DeviceSearch} (hlen : rom.discrepancies.length = 8)
    {i : Nat} (h : rom.is_bit_set_in_discrepancies i = true) :
    ∃ l, rom.last_discrepancy = some l ∧ rom.is_bit_set_in_discrepancies l = true ∧
      i ≤ l ∧ l < 64 ∧ ∀ j, l < j → rom.is_bit_set_in_discrepancies j = false := by
  have hi64 : i < 64 := disc_bit_lt_64 hlen h
  set P : Nat → Prop := fun j => rom.is_bit_set_in_discrepancies j = true with hP
  have hl1 : P (Nat.findGreatest P 63) := Nat.findGreatest_spec (by omega : i ≤ 63) h
  have hle : i ≤ Nat.findGreatest P 63 := Nat.le_findGreatest (by omega) h
  have hl64 : Nat.findGreatest P 63 < 64 := by
    have := Nat.findGreatest_le (P := P) 63
    omega
  have hmax : ∀ j, Nat.findGreatest P 63 < j → rom.is_bit_set_in_discrepancies j = false := by
    intro j hj
    by_cases hj64 : j ≤ 63
    · have := Nat.findGreatest_is_greatest hj hj64
      rw [hP] at this
      cases hbit : rom.is_bit_set_in_discrepancies j with
      | false => rfl
      | true => exact absurd hbit this
    · show is_bit_set rom.discrepancies j = false
      exact is_bit_set_of_ge (by omega)
  exact ⟨Nat.findGreatest P 63,
    last_discrepancy_eq_some hl1 hl64 fun j hj _ => hmax j hj, hl1, hle, hl64, hmax⟩

theorem romWF_new : romWF DeviceSearch.new := by
  constructor <;> exact ⟨by simp [DeviceSearch.new], by
    intro b hb
    rw [DeviceSearch.new] at hb
    simp at hb
    omega⟩

/-! ### The epilogue establishes the invariant -/

theorem searchFinish_spec (D : List Nat) (m : Nat) (res : DeviceSearch × Option Bool)
    (dfound' : Bool) (heq : res.2 = some dfound') (hwf : romWF res.1)
    (haddr : ∀ i, i < 64 → res.1.is_bit_set_in_address i = m.testBit i)
    (hdisciff : ∀ i, res.1.is_bit_set_in_discrepancies i = true ↔ discPred D m i)
    (hdf1 : dfound' = true → ∃ j, res.1.is_bit_set_in_discrepancies j = true)
    (hm64 : m < 2 ^ 64) (hmD : m ∈ D) :
    ∃ rom', searchFinish res = (rom', some rom'.address) ∧
      addrVal rom'.address = m ∧ INV D rom' m := by
  have hres : res = (res.1, some dfound') := by
    rw [← heq]
  have hfin : searchFinish res =
      (if !dfound' && res.1.last_discrepancy.isNone
       then { res.1 with state := SearchState.End }
       else { res.1 with state := SearchState.DeviceFound },
       some (if !dfound' && res.1.last_discrepancy.isNone
       then { res.1 with state := SearchState.End }
       else { res.1 with state := SearchState.DeviceFound }).address) := by
    rw [hres, searchFinish]
  -- the epilogue condition holds exactly when no discrepancy is pending
  have hnodisc_iff : (!dfound' && res.1.last_discrepancy.isNone) = true ↔
      ∀ i, ¬ discPred D m i := by
    constructor
    · rintro hc i hpred
      rw [Bool.and_eq_true, Bool.not_eq_true'] at hc
      have hset : res.1.is_bit_set_in_discrepancies i = true := (hdisciff i).mpr hpred
      obtain ⟨l, hl, hlset, hil, hl64, hmax⟩ := last_discrepancy_of_set hwf.2.1 hset
      rw [hl] at hc
      exact absurd hc.2 (by simp)
    · intro hall
      have hclear : ∀ j, res.1.is_bit_set_in_discrepancies j = false := by
        intro j
        cases hbit : res.1.is_bit_set_in_discrepancies j with
        | false => rfl
        | true => exact absurd ((hdisciff j).mp hbit) (hall j)
      have hdne : dfound' = false := by
        cases hdd : dfound' with
        | false => rfl
        | true =>
          obtain ⟨j, hj⟩ := hdf1 hdd
          rw [hclear j] at hj
          exact absurd hj (by simp)
      rw [hdne, last_discrepancy_eq_none fun i _ => hclear i]
      rfl
  by_cases hc : (!dfound' && res.1.last_discrepancy.isNone) = true
  · refine ⟨{ res.1 with state := SearchState.End }, ?_, ?_, ?_⟩
    · rw [hfin, if_pos hc]
    · exact addrVal_eq_of_bits hwf.1 hm64 fun i hi => haddr i hi
    · refine ⟨⟨hwf.1, hwf.2⟩, fun i hi => haddr i hi, fun i => hdisciff i, ?_, ?_, hmD⟩
      · constructor
        · intro _
          exact hnodisc_iff.mp hc
        · intro _
          rfl
      · intro hcontra
        exact SearchState.noConfusion hcontra
  · refine ⟨{ res.1 with state := SearchState.DeviceFound }, ?_, ?_, ?_⟩
    · rw [hfin, if_neg hc]
    · exact addrVal_eq_of_bits hwf.1 hm64 fun i hi => haddr i hi
    · refine ⟨⟨hwf.1, hwf.2⟩, fun i hi => haddr i hi, fun i => hdisciff i, ?_, ?_, hmD⟩
      · constructor
        · intro hcontra
          exact SearchState.noConfusion hcontra
        · intro hall
          exact absurd (hnodisc_iff.mpr hall) hc
      · intro hcontra
        exact SearchState.noConfusion hcontra

/-! ### The first search call finds the transmission-order minimum -/

theorem searchRound_first (D : List Nat) (hne : D ≠ []) (hbound : ∀ d ∈ D, d < 2 ^ 64) :
    ∃ m rom', searchRound D DeviceSearch.new = (rom', some rom'.address) ∧
      m ∈ D ∧ (∀ d ∈ D, ¬ ltS d m) ∧ addrVal rom'.address = m ∧ INV D rom' m := by
  have hld : DeviceSearch.new.last_discrepancy = none :=
    last_discrepancy_eq_none fun i _ => is_bit_set_replicate_zero i
  have hDempty : D.isEmpty = false := by
    cases D with
    | nil => exact absurd rfl hne
    | cons a l => rfl
  have hstep : searchRound D DeviceSearch.new =
      searchFinish (discLoop (List.range' 0 ADDRESS_BITS) D DeviceSearch.new false none) := by
    rw [searchRound]
    rw [if_neg (by intro hcontra; exact SearchState.noConfusion hcontra)]
    dsimp only
    rw [hld, hDempty]
    rfl
  obtain ⟨m, dfound', heq, hm, hmin, hwf', hstate', haddrlt, haddrge, hdisclt, hdiscge,
      hdf⟩ := discSpec_all 64 0 (by omega) D DeviceSearch.new false none
    ⟨hne, hbound, fun j _ => by simp, fun j _ => is_bit_set_replicate_zero j, romWF_new⟩
  obtain ⟨rom', hfin, hval, hinv⟩ := searchFinish_spec D m _ dfound' heq hwf'
    (fun i hi => haddrge i (Nat.zero_le i) hi)
    (fun i => by rw [hdiscge i (Nat.zero_le i)]; exact Iff.rfl)
    (fun hdd => by
      obtain ⟨j, _, hset⟩ := (hdf.mp hdd).resolve_left (by simp)
      exact ⟨j, hset⟩)
    (hbound m hm) hm
  refine ⟨m, rom', ?_, hm, fun d hd => hmin d hd, hval, hinv⟩
  rw [hstep]
  rw [show (List.range' 0 ADDRESS_BITS) = List.range' 0 64 from rfl]
  exact hfin

/-! ### Subsequent search calls find the transmission-order successor -/

theorem searchRound_next (D : List Nat) (rom : DeviceSearch) (f : Nat)
    (hinv : INV D rom f) (hbound : ∀ d ∈ D, d < 2 ^ 64)
    (hex : ∃ d ∈ D, ltS f d) :
    ∃ m rom', searchRound D rom = (rom', some rom'.address) ∧
      m ∈ D ∧ ltS f m ∧ (∀ d ∈ D, ltS f d → ¬ ltS d m) ∧
      addrVal rom'.address = m ∧ INV D rom' m := by
  obtain ⟨hwf, haddrf, hdiscf, hstiff, hstne, hfD⟩ := hinv
  have hlen_addr : rom.address.length = 8 := hwf.1.1
  have hlen_disc : rom.discrepancies.length = 8 := hwf.2.1
  obtain ⟨d0, hd0D, hd0⟩ := hex
  obtain ⟨j0, _, hj064, hm0, hf0, hd0t⟩ := ltFrom_witness_lt hd0 (hbound d0 hd0D)
  have hpred0 : discPred D f j0 := ⟨hj064, hf0, d0, hd0D, matchBetween_symm hm0, hd0t⟩
  have hset0 : rom.is_bit_set_in_discrepancies j0 = true := (hdiscf j0).mpr hpred0
  obtain ⟨l, hldisc, hlset, hj0l, hl64, hlmax⟩ := last_discrepancy_of_set hlen_disc hset0
  obtain ⟨_, hfl, dl, hdlD, hdlmatch, hdlt⟩ := (hdiscf l).mp hlset
  have hstate : rom.state = SearchState.DeviceFound := by
    cases hst : rom.state with
    | Initialized => exact absurd hst hstne
    | DeviceFound => rfl
    | End => exact absurd hpred0 (hstiff.mp hst j0)
  have hDne : D ≠ [] := List.ne_nil_of_mem hfD
  have hDempty : D.isEmpty = false := by
    cases D with
    | nil => exact absurd rfl hDne
    | cons a t => rfl
  have hreplay := replayLoop_spec l 0 D rom f hfD
    (fun j hj1 hj2 => (haddrf j (by omega)).symm)
  set surv := D.filter (fun d =>
    (List.range' 0 l).all fun j => d.testBit j == rom.is_bit_set_in_address j)
    with hsurvdef
  have hmem_surv : ∀ d, d ∈ surv ↔ d ∈ D ∧ matchBetween 0 l d f := by
    intro d
    rw [hsurvdef, List.mem_filter]
    constructor
    · rintro ⟨hdD, hall⟩
      refine ⟨hdD, fun k _ hk2 => ?_⟩
      have hk := List.all_eq_true.mp hall k (mem_range'_zero.mpr hk2)
      rw [beq_iff_eq] at hk
      rw [hk, haddrf k (by omega)]
    · rintro ⟨hdD, hmatch⟩
      refine ⟨hdD, List.all_eq_true.mpr fun k hk => ?_⟩
      have hk' := mem_range'_zero.mp hk
      rw [beq_iff_eq, haddrf k (by omega)]
      exact hmatch k (by omega) hk'
  have hstep0 : searchRound D rom =
      match replayLoop (List.range l) D rom with
      | none => (rom, none)
      | some cand =>
        searchFinish (discLoop (List.range' l (ADDRESS_BITS - l)) cand rom false (some l)) := by
    rw [searchRound, if_neg (by rw [hstate]; intro h; exact SearchState.noConfusion h)]
    dsimp only
    rw [hDempty, hldisc]
    rfl
  have hstep : searchRound D rom =
      searchFinish (discLoop (List.range' l (ADDRESS_BITS - l)) surv rom false (some l)) := by
    rw [hstep0, List.range_eq_range', hreplay]
  have hrange : ADDRESS_BITS - l = (63 - l) + 1 := by
    show 64 - l = 63 - l + 1
    omega
  have hstep2 : discLoop (List.range' l (ADDRESS_BITS - l)) surv rom false (some l) =
      discLoop (List.range' (l + 1) (63 - l)) (busWrite surv l true)
        ((rom.reset_bit_in_discrepancy l).set_bit_in_address l) false (some l) := by
    rw [hrange, List.range'_succ]
    rw [show discLoop (l :: List.range' (l + 1) (63 - l)) surv rom false (some l) =
        (if (some l : Option Nat) = some l then
          discLoop (List.range' (l + 1) (63 - l)) (busWrite surv l true)
            ((rom.reset_bit_in_discrepancy l).set_bit_in_address l) false (some l)
        else if busBit0 surv l && busBit1 surv l then (rom, none)
        else if !busBit0 surv l && !busBit1 surv l then
          discLoop (List.range' (l + 1) (63 - l)) (busWrite surv l false)
            ((rom.set_bit_in_discrepancy l).reset_bit_in_address l) true (some l)
        else
          discLoop (List.range' (l + 1) (63 - l)) (busWrite surv l (busBit0 surv l))
            (rom.write_bit_in_address l (busBit0 surv l)) false (some l)) from rfl]
    rw [if_pos rfl]
  set rom1 := (rom.reset_bit_in_discrepancy l).set_bit_in_address l with hrom1def
  set cand1 := busWrite surv l true with hcand1def
  have hdlsurv : dl ∈ surv := (hmem_surv dl).mpr ⟨hdlD, hdlmatch⟩
  have hdl1 : dl ∈ cand1 := mem_busWrite.mpr ⟨hdlsurv, hdlt⟩
  have hsubD : ∀ d ∈ cand1, d ∈ D := fun d hd =>
    ((hmem_surv d).mp (mem_busWrite.mp hd).1).1
  have hrom1_disc_hi : ∀ j, l + 1 ≤ j → rom1.is_bit_set_in_discrepancies j = false := by
    intro j hj
    show is_bit_set (reset_bit rom.discrepancies l) j = false
    by_cases hj64 : j < 64
    · rw [is_bit_set_reset_bit hlen_disc hj64 hl64]
      have hclear : is_bit_set rom.discrepancies j = false := hlmax j (by omega)
      rw [hclear]
      rfl
    · exact is_bit_set_of_ge (by rw [(hwf.2.reset_bit l).1]; omega)
  have hwf1 : romWF rom1 := romWF_set_addr (romWF_reset_disc hwf l) l
  have hhyps : DiscHyps (l + 1) cand1 rom1 (some l) :=
    ⟨List.ne_nil_of_mem hdl1, fun d hd => hbound d (hsubD d hd),
     fun j hj hcontra => by
       have := Option.some.inj hcontra
       omega,
     hrom1_disc_hi, hwf1⟩
  obtain ⟨m, dfound', heq, hm1, hmin1, hwf', hstate', haddr_lo, haddr_hi, hdisc_lo,
      hdisc_hi, hdf⟩ :=
    discSpec_all (63 - l) (l + 1) (by omega) cand1 rom1 false (some l) hhyps
  have hmsurv : m ∈ surv := (mem_busWrite.mp hm1).1
  have hml : m.testBit l = true := (mem_busWrite.mp hm1).2
  have hmD : m ∈ D := ((hmem_surv m).mp hmsurv).1
  have hmf_below : matchBetween 0 l m f := ((hmem_surv m).mp hmsurv).2
  have hfm : ltS f m := ⟨l, Nat.zero_le l, matchBetween_symm hmf_below, hfl, hml⟩
  have hm64 : m < 2 ^ 64 := hbound m hmD
  have haddr : ∀ i, i < 64 →
      (discLoop (List.range' (l + 1) (63 - l)) cand1 rom1 false
        (some l)).1.is_bit_set_in_address i = m.testBit i := by
    intro i hi
    by_cases hil : l + 1 ≤ i
    · exact haddr_hi i hil hi
    · rw [haddr_lo i (by omega)]
      show is_bit_set (set_bit rom.address l) i = m.testBit i
      rw [is_bit_set_set_bit hlen_addr hi hl64]
      by_cases hieq : i = l
      · rw [hieq, hml]
        simp
      · have h1 : (i == l) = false := by simp [hieq]
        rw [h1, Bool.or_false]
        have h2 : is_bit_set rom.address i = f.testBit i := haddrf i hi
        rw [h2, ← hmf_below i (Nat.zero_le i) (by omega)]
  have hpred_transfer : ∀ i, i < l → (discPred D f i ↔ discPred D m i) := by
    intro i hil
    have hfm_i : f.testBit i = m.testBit i := (hmf_below i (Nat.zero_le i) hil).symm
    constructor
    · rintro ⟨hi64, hfi, d, hdD, hdm, hdt⟩
      refine ⟨hi64, by rw [← hfm_i]; exact hfi, d, hdD, fun k hk1 hk2 => ?_, hdt⟩
      rw [hdm k hk1 hk2]
      exact (hmf_below k hk1 (by omega)).symm
    · rintro ⟨hi64, hmi, d, hdD, hdm, hdt⟩
      refine ⟨hi64, by rw [hfm_i]; exact hmi, d, hdD, fun k hk1 hk2 => ?_, hdt⟩
      rw [hdm k hk1 hk2]
      exact hmf_below k hk1 (by omega)
  have hdisciff : ∀ i,
      (discLoop (List.range' (l + 1) (63 - l)) cand1 rom1 false
        (some l)).1.is_bit_set_in_discrepancies i = true ↔ discPred D m i := by
    intro i
    by_cases hge : l + 1 ≤ i
    · rw [hdisc_hi i hge]
      constructor
      · rintro ⟨hi64, hmi, d, hd1, hdm, hdt⟩
        refine ⟨hi64, hmi, d, hsubD d hd1, fun k hk1 hk2 => ?_, hdt⟩
        by_cases hkl1 : l + 1 ≤ k
        · exact hdm k hkl1 hk2
        · by_cases hkl : k = l
          · rw [hkl, (mem_busWrite.mp hd1).2, hml]
          · have hkl' : k < l := by omega
            have hdmatch : matchBetween 0 l d f :=
              ((hmem_surv d).mp (mem_busWrite.mp hd1).1).2
            rw [hdmatch k (Nat.zero_le k) hkl']
            exact (hmf_below k (Nat.zero_le k) hkl').symm
      · rintro ⟨hi64, hmi, d, hdD, hdm, hdt⟩
        have hdmatchf : matchBetween 0 l d f := by
          intro k hk1 hk2
          rw [hdm k hk1 (by omega)]
          exact hmf_below k hk1 hk2
        have hdsurv : d ∈ surv := (hmem_surv d).mpr ⟨hdD, hdmatchf⟩
        have hdl' : d.testBit l = true := by
          rw [hdm l (Nat.zero_le l) (by omega)]
          exact hml
        exact ⟨hi64, hmi, d, mem_busWrite.mpr ⟨hdsurv, hdl'⟩,
          matchBetween_mono hdm (by omega) (le_refl i), hdt⟩
    · rw [hdisc_lo i (by omega)]
      by_cases hieq : i = l
      · have hfalse : rom1.is_bit_set_in_discrepancies i = false := by
          show is_bit_set (reset_bit rom.discrepancies l) i = false
          rw [hieq, is_bit_set_reset_bit hlen_disc hl64 hl64]
          simp
        rw [hfalse]
        constructor
        · intro h
          exact absurd h (by simp)
        · rintro ⟨_, hmi, _⟩
          rw [hieq, hml] at hmi
          exact absurd hmi (by simp)
      · have hil : i < l := by omega
        have hsame : rom1.is_bit_set_in_discrepancies i =
            rom.is_bit_set_in_discrepancies i := by
          show is_bit_set (reset_bit rom.discrepancies l) i = _
          rw [is_bit_set_reset_bit hlen_disc (by omega) hl64]
          have h1 : (i == l) = false := by simp [hieq]
          rw [h1]
          simp [DeviceSearch.is_bit_set_in_discrepancies]
        rw [hsame, hdiscf i]
        exact hpred_transfer i hil
  have hdf1 : dfound' = true → ∃ j,
      (discLoop (List.range' (l + 1) (63 - l)) cand1 rom1 false
        (some l)).1.is_bit_set_in_discrepancies j = true := by
    intro hdd
    obtain ⟨j, _, hj⟩ := (hdf.mp hdd).resolve_left (by simp)
    exact ⟨j, hj⟩
  obtain ⟨rom', hfin, hval, hinv'⟩ := searchFinish_spec D m _ dfound' heq hwf'
    haddr hdisciff hdf1 hm64 hmD
  have hminimal : ∀ d ∈ D, ltS f d → ¬ ltS d m := by
    intro d hdD hfd hdm
    obtain ⟨j, _, hj64, hmatchfd, hfj, hdj⟩ := ltFrom_witness_lt hfd (hbound d hdD)
    have hpredj : discPred D f j := ⟨hj64, hfj, d, hdD, matchBetween_symm hmatchfd, hdj⟩
    have hsetj : rom.is_bit_set_in_discrepancies j = true := (hdiscf j).mpr hpredj
    have hjl : j ≤ l := by
      by_contra hgt
      rw [hlmax j (by omega)] at hsetj
      exact Bool.false_ne_true hsetj
    by_cases hjeq : j = l
    · rw [hjeq] at hmatchfd hdj
      have hdsurv : d ∈ surv := (hmem_surv d).mpr ⟨hdD, matchBetween_symm hmatchfd⟩
      have hdc1 : d ∈ cand1 := mem_busWrite.mpr ⟨hdsurv, hdj⟩
      have hagree : ∀ k, k < l + 1 → d.testBit k = m.testBit k := by
        intro k hk
        by_cases hkj : k = l
        · rw [hkj, hdj, hml]
        · have hk' : k < l := by omega
          rw [← hmatchfd k (Nat.zero_le k) hk']
          exact (hmf_below k (Nat.zero_le k) hk').symm
      obtain ⟨j', hj'0, hmatchdm, hdj', hmj'⟩ := hdm
      have hj'gt : l + 1 ≤ j' := by
        by_contra hlt
        have hcontra := hagree j' (by omega)
        rw [hdj', hmj'] at hcontra
        exact Bool.false_ne_true hcontra
      exact hmin1 d hdc1
        ⟨j', hj'gt, fun k hk1 hk2 => hmatchdm k (by omega) hk2, hdj', hmj'⟩
    · have hjl' : j < l := by omega
      have hmd : ltS m d := by
        refine ⟨j, Nat.zero_le j, fun k hk1 hk2 => ?_, ?_, hdj⟩
        · rw [hmf_below k hk1 (by omega)]
          exact hmatchfd k hk1 hk2
        · rw [hmf_below j (Nat.zero_le j) hjl']
          exact hfj
      exact ltFrom_asymm hdm hmd
  refine ⟨m, rom', ?_, hmD, hfm, hminimal, hval, hinv'⟩
  rw [hstep, hstep2]
  exact hfin

/-! ### The full enumeration run -/

theorem searchRun_inv : ∀ (n : Nat) (R D : List Nat) (rom : DeviceSearch) (f : Nat),
    R.length = n → R.Nodup → (∀ d ∈ D, d < 2 ^ 64) → INV D rom f →
    (∀ d, d ∈ R ↔ d ∈ D ∧ ltS f d) →
    ((searchRun n D rom).1.map addrVal).Perm R ∧
    List.Chain ltS f ((searchRun n D rom).1.map addrVal) ∧
    (searchRun n D rom).1.length = n ∧
    (searchRun n D rom).2.state = SearchState.End := by
  intro n
  induction n with
  | zero =>
    intro R D rom f hlen hnodup hbound hinv hR
    have hRnil : R = [] := List.length_eq_zero.mp hlen
    subst hRnil
    have hend : rom.state = SearchState.End := by
      apply hinv.2.2.2.1.mpr
      rintro i ⟨hi64, hfi, d, hdD, hdm, hdt⟩
      have hfd : ltS f d := ⟨i, Nat.zero_le i, matchBetween_symm hdm, hfi, hdt⟩
      have hmem : d ∈ ([] : List Nat) := (hR d).mpr ⟨hdD, hfd⟩
      simp at hmem
    exact ⟨List.Perm.refl _, List.Chain.nil, rfl, hend⟩
  | succ n ih =>
    intro R D rom f hlen hnodup hbound hinv hR
    have hRne : R ≠ [] := by
      intro h
      rw [h] at hlen
      simp at hlen
    obtain ⟨r0, hr0⟩ := List.exists_mem_of_ne_nil R hRne
    have hex : ∃ d ∈ D, ltS f d := ⟨r0, ((hR r0).mp hr0).1, ((hR r0).mp hr0).2⟩
    obtain ⟨m, rom', hround, hmD, hfm, hminimal, hval, hinv'⟩ :=
      searchRound_next D rom f hinv hbound hex
    have hmR : m ∈ R := (hR m).mpr ⟨hmD, hfm⟩
    have hR' : ∀ d, d ∈ R.erase m ↔ d ∈ D ∧ ltS m d := by
      intro d
      rw [List.Nodup.mem_erase_iff hnodup]
      constructor
      · rintro ⟨hdm, hdR⟩
        obtain ⟨hdD, hfd⟩ := (hR d).mp hdR
        refine ⟨hdD, ?_⟩
        rcases ltS_total hdm with h | h
        · exact absurd h (hminimal d hdD hfd)
        · exact h
      · rintro ⟨hdD, hmd⟩
        refine ⟨?_, (hR d).mpr ⟨hdD, ltFrom_trans hfm hmd⟩⟩
        intro heq
        rw [heq] at hmd
        exact ltFrom_irrefl 0 m hmd
    have hlen' : (R.erase m).length = n := by
      rw [List.length_erase_of_mem hmR]
      omega
    obtain ⟨hperm', hchain', hlen'', hstate'⟩ :=
      ih (R.erase m) D rom' m hlen' (hnodup.erase m) hbound hinv' hR'
    have hrun : searchRun (n + 1) D rom =
        (rom'.address :: (searchRun n D rom').1, (searchRun n D rom').2) := by
      rw [searchRun, hround]
    rw [hrun]
    refine ⟨?_, ?_, ?_, hstate'⟩
    · show (addrVal rom'.address :: (searchRun n D rom').1.map addrVal).Perm R
      rw [hval]
      exact (hperm'.cons m).trans (List.perm_cons_erase hmR).symm
    · show List.Chain ltS f (addrVal rom'.address :: (searchRun n D rom').1.map addrVal)
      rw [hval]
      exact List.Chain.cons hfm hchain'
    · show (rom'.address :: (searchRun n D rom').1).length = n + 1
      simp [hlen'']

instance : IsTrans Nat ltS := ⟨fun _ _ _ h1 h2 => ltFrom_trans h1 h2⟩

set_option maxRecDepth 8192 in
/-- C1 (counterexample): on the bus {1, 2} a full enumeration from a fresh
`DeviceSearch` yields the addresses as [2, 1] — each device exactly once and
ending in `End`, but NOT in strictly ascending binary (numeric) order: the
Dallas search walks the address tree LSB-first, so device 2 (bit 0 = 0) is
found before device 1 (bit 0 = 1). -/
theorem c1_search_order_counterexample :
    ((searchRun 2 [1, 2] DeviceSearch.new).1.map addrVal = [2, 1]) ∧
    ¬ ((searchRun 2 [1, 2] DeviceSearch.new).1.map addrVal).Sorted (fun a b => a < b) ∧
    (searchRun 2 [1, 2] DeviceSearch.new).2.state = SearchState.End := by
  decide

/-- C1 (amended): for every non-empty duplicate-free list of 64-bit ROM
addresses, running `DeviceSearch.length` search calls from a fresh
`DeviceSearch` yields each address exactly once (a permutation of the bus),
in strictly ascending transmission order `ltS` (LSB-first lexicographic,
i.e. ascending order of the bit-reversed values — not ascending numeric
order), using exactly one device-returning call per device, after which the
state is `End`. -/
theorem c1_search_enumeration_amended (D : List Nat) (hne : D ≠ [])
    (hnodup : D.Nodup) (hbound : ∀ d ∈ D, d < 2 ^ 64) :
    ((searchRun D.length D DeviceSearch.new).1.map addrVal).Perm D ∧
    ((searchRun D.length D DeviceSearch.new).1.map addrVal).Sorted ltS ∧
    (searchRun D.length D DeviceSearch.new).1.length = D.length ∧
    (searchRun D.length D DeviceSearch.new).2.state = SearchState.End := by
  obtain ⟨k, hk⟩ : ∃ k, D.length = k + 1 := by
    cases D with
    | nil => exact absurd rfl hne
    | cons a t => exact ⟨t.length, rfl⟩
  rw [hk]
  obtain ⟨m, rom', hround, hmD, hmin, hval, hinv⟩ := searchRound_first D hne hbound
  have hR : ∀ d, d ∈ D.erase m ↔ d ∈ D ∧ ltS m d := by
    intro d
    rw [List.Nodup.mem_erase_iff hnodup]
    constructor
    · rintro ⟨hdm, hdD⟩
      refine ⟨hdD, ?_⟩
      rcases ltS_total hdm with h | h
      · exact absurd h (hmin d hdD)
      · exact h
    · rintro ⟨hdD, hmd⟩
      refine ⟨?_, hdD⟩
      intro heq
      rw [heq] at hmd
      exact ltFrom_irrefl 0 m hmd
  have hlen' : (D.erase m).length = k := by
    rw [List.length_erase_of_mem hmD, hk]
    omega
  obtain ⟨hperm', hchain', hlen'', hstate'⟩ :=
    searchRun_inv k (D.erase m) D rom' m hlen' (hnodup.erase m) hbound hinv hR
  have hrun : searchRun (k + 1) D DeviceSearch.new =
      (rom'.address :: (searchRun k D rom').1, (searchRun k D rom').2) := by
    rw [searchRun, hround]
  rw [hrun]
  refine ⟨?_, ?_, ?_, hstate'⟩
  · show (addrVal rom'.address :: (searchRun k D rom').1.map addrVal).Perm D
    rw [hval]
    exact (hperm'.cons m).trans (List.perm_cons_erase hmD).symm
  · show (addrVal rom'.address :: (searchRun k D rom').1.map addrVal).Sorted ltS
    rw [hval]
    exact List.chain_iff_pairwise.mp hchain'
  · show (rom'.address :: (searchRun k D rom').1).length = k + 1
    simp [hlen'']

/-- C1 witness: the amended enumeration theorem applied to the concrete bus
{2, 5}: the hypotheses hold and the run yields a permutation of {2, 5} in
ascending transmission order. -/
theorem c1_search_enumeration_amended_witness :
    ([2, 5] : List Nat) ≠ [] ∧
    (((searchRun ([2, 5] : List Nat).length [2, 5] DeviceSearch.new).1.map
        addrVal).Perm [2, 5] ∧
      ((searchRun ([2, 5] : List Nat).length [2, 5] DeviceSearch.new).1.map
        addrVal).Sorted ltS) :=
  ⟨by decide,
    (c1_search_enumeration_amended [2, 5] (by decide) (by decide) (by decide)).1,
    (c1_search_enumeration_amended [2, 5] (by decide) (by decide) (by decide)).2.1⟩

end OneWire